import Mathlib

/-!
Verification of the qart bit-steering engine (package main, wasm build).

Bytes are modelled as natural numbers (every operation used here — XOR, shifts,
masks — never overflows 8 bits when the inputs are bytes, and the definitions
below mirror the Go expressions literally).  Byte slices are lists of naturals.

The Go slice `b.M` with its hidden capacity region `b.M[len(b.M):cap(b.M)]`
is modelled as two lists: `M` (the active rows) and `Mret` (the retained rows,
most recently pinned first — shrinking the slice by one puts the former pivot
at position `len`, i.e. at the head of the retained region).
-/

namespace QArt

/-- XOR one byte row into another, `for j, v := range row { dst[j] ^= v }`. -/
def xorRow (dst row : List Nat) : List Nat := List.zipWith Nat.xor dst row

/-- `l[k]` on a Go byte slice (all accesses in the source are in bounds;
out-of-bounds reads default to 0 here). -/
def byteAt (l : List Nat) (k : Nat) : Nat := l.getD k 0

/-- `(l[bi/8] >> (7 - bi&7)) & 1` — the value of bit `bi` (big-endian in bytes). -/
def getBit (l : List Nat) (bi : Nat) : Nat :=
  (byteAt l (bi / 8) >>> (7 - bi % 8)) &&& 1

/-- `l[bi/8] & (1 << (7 - bi&7)) != 0` — whether bit `bi` is set. -/
def hasBit (l : List Nat) (bi : Nat) : Bool :=
  byteAt l (bi / 8) &&& (1 <<< (7 - bi % 8)) != 0

theorem getBit_le_one (l : List Nat) (bi : Nat) : getBit l bi ≤ 1 := by
  unfold getBit
  rw [Nat.and_one_is_mod]
  exact Nat.le_of_lt_succ (Nat.mod_lt _ (by norm_num))

theorem getBit_eq_toNat_testBit (l : List Nat) (bi : Nat) :
    getBit l bi = ((byteAt l (bi / 8)).testBit (7 - bi % 8)).toNat := by
  unfold getBit
  rw [Nat.and_one_is_mod, Nat.testBit_to_div_mod, Nat.shiftRight_eq_div_pow]
  rcases Nat.mod_two_eq_zero_or_one (byteAt l (bi / 8) / 2 ^ (7 - bi % 8)) with h | h <;>
    simp [h]

theorem hasBit_eq_testBit (l : List Nat) (bi : Nat) :
    hasBit l bi = (byteAt l (bi / 8)).testBit (7 - bi % 8) := by
  unfold hasBit
  rw [Nat.shiftLeft_eq, one_mul, Nat.and_two_pow]
  cases h : (byteAt l (bi / 8)).testBit (7 - bi % 8) <;> simp [h]

theorem hasBit_iff_getBit (l : List Nat) (bi : Nat) :
    hasBit l bi = true ↔ getBit l bi = 1 := by
  rw [hasBit_eq_testBit, getBit_eq_toNat_testBit]
  cases h : (byteAt l (bi / 8)).testBit (7 - bi % 8) <;> simp [h]

theorem hasBit_false_getBit (l : List Nat) (bi : Nat) :
    hasBit l bi = false ↔ getBit l bi = 0 := by
  rw [hasBit_eq_testBit, getBit_eq_toNat_testBit]
  cases h : (byteAt l (bi / 8)).testBit (7 - bi % 8) <;> simp [h]

theorem byteAt_xorRow (a b : List Nat) (k : Nat)
    (ha : k < a.length) (hb : k < b.length) :
    byteAt (xorRow a b) k = byteAt a k ^^^ byteAt b k := by
  unfold byteAt xorRow
  rw [List.getD_eq_getElem _ _ (by simp [List.length_zipWith]; omega),
      List.getD_eq_getElem _ _ ha, List.getD_eq_getElem _ _ hb,
      List.getElem_zipWith]
  rfl

theorem getBit_xorRow (a b : List Nat) (bi : Nat)
    (ha : bi / 8 < a.length) (hb : bi / 8 < b.length) :
    getBit (xorRow a b) bi = getBit a bi ^^^ getBit b bi := by
  rw [getBit_eq_toNat_testBit, getBit_eq_toNat_testBit, getBit_eq_toNat_testBit,
      byteAt_xorRow a b _ ha hb, Nat.testBit_xor]
  cases (byteAt a (bi / 8)).testBit (7 - bi % 8) <;>
    cases (byteAt b (bi / 8)).testBit (7 - bi % 8) <;> rfl

theorem length_xorRow (a b : List Nat) (h : b.length = a.length) :
    (xorRow a b).length = a.length := by
  simp [xorRow, List.length_zipWith, h]

/-- Per-block solver state (`type BitBlock struct`).  `Tmp`, `RS`, `bdata`,
`cdata` from the source are not state of the solving algorithm: `Tmp` is
scratch for the `check` assertion, `RS` the Reed–Solomon encoder (a parameter
here), `bdata`/`cdata` the external slices written by `copyOut`. -/
structure BitBlock where
  DataBytes : Nat
  CheckBytes : Nat
  B : List Nat
  M : List (List Nat)
  Mret : List (List Nat)
deriving DecidableEq, Repr

/-- Split a row list at the first row satisfying `p` (the scan of the
`for j, row := range m` loop before any row is found). -/
def splitAtFirst (p : List Nat → Bool) :
    List (List Nat) → Option (List (List Nat) × List Nat × List (List Nat))
  | [] => none
  | r :: rest =>
    if p r then some ([], r, rest)
    else
      match splitAtFirst p rest with
      | none => none
      | some (pre, piv, post) => some (r :: pre, piv, post)

/-- XOR `targ` into every row whose bit `bi` is set (the in-loop elimination
and the retained-row subtraction both have this shape). -/
def reduceRows (targ : List Nat) (bi : Nat) (rows : List (List Nat)) :
    List (List Nat) :=
  rows.map fun row => if hasBit row bi then xorRow row targ else row

/-- The active region after the scan loop: the pivot was swapped to index 0,
the previous `m[0]` sits in the pivot's old slot, and the pivot was XORed
into every row after the pivot's slot that has bit `bi` set (the rows before
it were scanned first and have the bit clear). -/
def afterScan (pre : List (List Nat)) (pivot : List Nat) (bi : Nat)
    (post : List (List Nat)) : List (List Nat) :=
  match pre with
  | [] => reduceRows pivot bi post
  | m0 :: rest => rest ++ m0 :: reduceRows pivot bi post

/-- `m[0], m[n] = m[n], m[0]; b.M = m[:n]` applied to the rows after the
pivot (index 0): the last row moves to the front, the pivot is dropped into
the retained region. -/
def rotLast (l : List (List Nat)) : List (List Nat) :=
  match l.reverse with
  | [] => []
  | last :: revInit => last :: revInit.reverse

/-- `func (b *BitBlock) canSet(bi uint, bval byte) bool`.

Returns the Go boolean together with the state after the call.  The scan
finds the first active row with bit `bi` set; if none exists the function
returns false having written nothing.  Otherwise the pivot is XORed into
the other active rows and the retained rows that have the bit set, `B` is
flipped if needed, and the pivot is parked at the head of the retained
region while the active region shrinks by one. -/
def BitBlock.canSet (b : BitBlock) (bi : Nat) (bval : Nat) : Bool × BitBlock :=
  match splitAtFirst (fun row => hasBit row bi) b.M with
  | none => (false, b)
  | some (pre, pivot, post) =>
    let mret' := reduceRows pivot bi b.Mret
    let newB := if getBit b.B bi ≠ bval then xorRow b.B pivot else b.B
    (true, { b with B := newB, M := rotLast (afterScan pre pivot bi post),
                    Mret := pivot :: mret' })

/-- `func (b *BitBlock) reset(bi uint, bval byte)`.

`none` models the `panic("reset of unset bit")`. -/
def BitBlock.reset (b : BitBlock) (bi : Nat) (bval : Nat) : Option BitBlock :=
  if getBit b.B bi = bval then some b
  else
    match b.Mret.find? (fun row => hasBit row bi) with
    | some row => some { b with B := xorRow b.B row }
    | none => none

/-- `func (b *BitBlock) copyOut()` — writes `B` back to the external data and
check slices (returned here as a pair); `B` itself is untouched. -/
def BitBlock.copyOut (b : BitBlock) : List Nat × List Nat :=
  (b.B.take b.DataBytes, b.B.drop b.DataBytes)

/-- Tableau row `i` of `newBlock`: `nd+nc` zero bytes, bit `i` set in the data
part, ECC of the data part appended (`row[i/8] = 1 << (7 - i%8);
rs.ECC(row[:nd], row[nd:])`). -/
def unitRow (ecc : List Nat → List Nat) (nd : Nat) (i : Nat) : List Nat :=
  let d := (List.range nd).map fun j => if j = i / 8 then 1 <<< (7 - i % 8) else 0
  d ++ ecc d

/-- `func newBlock(nd, nc int, rs *gf256.RSEncoder, dat, cdata []byte)`.
`B` is `dat` followed by its ECC; the tableau is one `unitRow` per data bit;
the retained region starts empty.  (The constructor's `panic("cdata")`
assertion, `ecc dat = cdata`, is a precondition on the caller.) -/
def newBlock (ecc : List Nat → List Nat) (nd nc : Nat) (dat : List Nat) :
    BitBlock :=
  { DataBytes := nd
    CheckBytes := nc
    B := dat ++ ecc dat
    M := (List.range (nd * 8)).map (unitRow ecc nd)
    Mret := [] }

/-! Structural lemmas about the scan. -/

theorem splitAtFirst_eq (p : List Nat → Bool) (m pre post : List (List Nat))
    (piv : List Nat) (h : splitAtFirst p m = some (pre, piv, post)) :
    m = pre ++ piv :: post ∧ (∀ r ∈ pre, p r = false) ∧ p piv = true := by
  induction m generalizing pre with
  | nil => simp [splitAtFirst] at h
  | cons r rest ih =>
    by_cases hr : p r
    · simp [splitAtFirst, hr] at h
      obtain ⟨h1, h2, h3⟩ := h
      subst h1 h2 h3
      exact ⟨rfl, by simp, hr⟩
    · simp only [splitAtFirst, if_neg hr] at h
      cases hrec : splitAtFirst p rest with
      | none => rw [hrec] at h; exact absurd h (by simp)
      | some x =>
        obtain ⟨pre1, piv1, post1⟩ := x
        rw [hrec] at h
        simp at h
        obtain ⟨h1, h2, h3⟩ := h
        subst h2 h3
        obtain ⟨hm, hpre, hpiv⟩ := ih pre1 hrec
        subst h1
        refine ⟨by simp [hm], ?_, hpiv⟩
        intro x hx
        rcases List.mem_cons.mp hx with hx | hx
        · subst hx; exact eq_false_of_ne_true hr
        · exact hpre x hx

theorem splitAtFirst_isNone (p : List Nat → Bool) (m : List (List Nat)) :
    splitAtFirst p m = none ↔ ∀ r ∈ m, p r = false := by
  induction m with
  | nil => simp [splitAtFirst]
  | cons r rest ih =>
    by_cases hr : p r
    · simp [splitAtFirst, hr]
    · constructor
      · intro h x hx
        simp only [splitAtFirst, if_neg hr] at h
        rcases List.mem_cons.mp hx with hx | hx
        · subst hx; exact eq_false_of_ne_true hr
        · refine (ih.mp ?_) x hx
          cases hrec : splitAtFirst p rest with
          | none => rfl
          | some y =>
            obtain ⟨pre1, piv1, post1⟩ := y
            rw [hrec] at h
            exact absurd h (by simp)
      · intro hall
        simp only [splitAtFirst, if_neg hr]
        rw [ih.mpr (fun x hx => hall x (List.mem_cons_of_mem _ hx))]

theorem mem_reduceRows (targ : List Nat) (bi : Nat) (rows : List (List Nat))
    (x : List Nat) (hx : x ∈ reduceRows targ bi rows) :
    ∃ row ∈ rows, x = row ∨ x = xorRow row targ := by
  obtain ⟨row, hrow, hmap⟩ := List.mem_map.mp hx
  refine ⟨row, hrow, ?_⟩
  by_cases h : hasBit row bi <;> simp [h] at hmap <;> [exact Or.inr hmap.symm;
    exact Or.inl hmap.symm]

theorem length_reduceRows (targ : List Nat) (bi : Nat) (rows : List (List Nat)) :
    (reduceRows targ bi rows).length = rows.length := by
  simp [reduceRows]

theorem mem_afterScan (pre : List (List Nat)) (pivot : List Nat) (bi : Nat)
    (post : List (List Nat)) (x : List Nat)
    (hx : x ∈ afterScan pre pivot bi post) :
    x ∈ pre ∨ x ∈ reduceRows pivot bi post := by
  cases pre with
  | nil => exact Or.inr hx
  | cons m0 rest =>
    simp only [afterScan] at hx
    rcases List.mem_append.mp hx with hx | hx
    · exact Or.inl (List.mem_cons_of_mem _ hx)
    · rcases List.mem_cons.mp hx with hx | hx
      · exact Or.inl (by simp [hx])
      · exact Or.inr hx

theorem length_afterScan (pre : List (List Nat)) (pivot : List Nat) (bi : Nat)
    (post : List (List Nat)) :
    (afterScan pre pivot bi post).length = pre.length + post.length := by
  cases pre with
  | nil => simp [afterScan, length_reduceRows]
  | cons m0 rest => simp [afterScan, length_reduceRows]; omega

theorem mem_rotLast (l : List (List Nat)) (x : List Nat) (hx : x ∈ rotLast l) :
    x ∈ l := by
  unfold rotLast at hx
  cases hrev : l.reverse with
  | nil => rw [hrev] at hx; simp at hx
  | cons last revInit =>
    rw [hrev] at hx
    have hl : l = (last :: revInit).reverse := by
      rw [← hrev, List.reverse_reverse]
    rcases List.mem_cons.mp hx with hx | hx
    · subst hx
      rw [hl]
      simp
    · rw [hl]
      simp only [List.reverse_cons]
      exact List.mem_append.mpr (Or.inl (List.mem_reverse.mpr
        (List.mem_reverse.mp hx)))

theorem length_rotLast (l : List (List Nat)) : (rotLast l).length = l.length := by
  unfold rotLast
  cases hrev : l.reverse with
  | nil => simp [← List.length_reverse l, hrev]
  | cons last revInit =>
    have : l.length = (last :: revInit).length := by
      rw [← List.length_reverse l, hrev]
    simp [this]

/-! Characterization of a failed `canSet`. -/

theorem canSet_false_iff (b : BitBlock) (bi bval : Nat) :
    (b.canSet bi bval).1 = false ↔ ∀ row ∈ b.M, hasBit row bi = false := by
  unfold BitBlock.canSet
  cases h : splitAtFirst (fun row => hasBit row bi) b.M with
  | none =>
    simp only [eq_self_iff_true, true_iff]
    exact (splitAtFirst_isNone _ _).mp h
  | some x =>
    obtain ⟨pre, piv, post⟩ := x
    simp only [Bool.true_eq_false, false_iff]
    intro hall
    rw [(splitAtFirst_isNone _ _).mpr hall] at h
    exact absurd h (by simp)

theorem canSet_false_unchanged (b : BitBlock) (bi bval : Nat)
    (h : (b.canSet bi bval).1 = false) : (b.canSet bi bval).2 = b := by
  unfold BitBlock.canSet at h ⊢
  cases hs : splitAtFirst (fun row => hasBit row bi) b.M with
  | none => rfl
  | some x =>
    obtain ⟨pre, piv, post⟩ := x
    rw [hs] at h
    exact absurd h (by simp)

/-! The Reed–Solomon encoder and the codeword invariant.

Modelled from the spec: the encoder `gf256.RSEncoder.ECC` lives in package
`rsc.io/qr/gf256`, outside these sources.  Per spec section 4.1 it is a
deterministic map from `nd` data bytes to `nc` check bytes that is linear
over GF(2), i.e. over bytewise XOR.  It is kept abstract as a function
argument `ecc` constrained by `EccLinear` and `EccLen`. -/

def EccLinear (ecc : List Nat → List Nat) (nd : Nat) : Prop :=
  ∀ x y : List Nat, x.length = nd → y.length = nd →
    ecc (xorRow x y) = xorRow (ecc x) (ecc y)

def EccLen (ecc : List Nat → List Nat) (nd nc : Nat) : Prop :=
  ∀ d : List Nat, d.length = nd → (ecc d).length = nc

/-- `v` is a valid systematic RS codeword: `nd+nc` bytes with
`ECC(v[:nd]) = v[nd:]`. -/
@[reducible] def IsCodeword (ecc : List Nat → List Nat) (nd nc : Nat)
    (v : List Nat) : Prop :=
  v.length = nd + nc ∧ ecc (v.take nd) = v.drop nd

theorem take_xorRow (a b : List Nat) (n : Nat) :
    (xorRow a b).take n = xorRow (a.take n) (b.take n) :=
  List.take_zipWith

theorem drop_xorRow (a b : List Nat) (n : Nat) :
    (xorRow a b).drop n = xorRow (a.drop n) (b.drop n) :=
  List.drop_zipWith

theorem IsCodeword.xorRows {ecc : List Nat → List Nat} {nd nc : Nat}
    (hlin : EccLinear ecc nd) {v w : List Nat}
    (hv : IsCodeword ecc nd nc v) (hw : IsCodeword ecc nd nc w) :
    IsCodeword ecc nd nc (xorRow v w) := by
  obtain ⟨hvl, hve⟩ := hv
  obtain ⟨hwl, hwe⟩ := hw
  constructor
  · rw [length_xorRow _ _ (hwl.trans hvl.symm)]; exact hvl
  · rw [take_xorRow, drop_xorRow,
      hlin _ _ (by simp [List.length_take, hvl]) (by simp [List.length_take, hwl]),
      hve, hwe]

/-- Invariant I1/I2 of the solver: the buffer and every tableau row (active
or retained) is a valid RS codeword. -/
@[reducible] def BlockInv (ecc : List Nat → List Nat) (nd nc : Nat) (b : BitBlock) : Prop :=
  IsCodeword ecc nd nc b.B ∧ (∀ row ∈ b.M, IsCodeword ecc nd nc row) ∧
    (∀ row ∈ b.Mret, IsCodeword ecc nd nc row)

theorem codeword_append {ecc : List Nat → List Nat} {nd nc : Nat}
    (hlen : EccLen ecc nd nc) {dat : List Nat} (hdat : dat.length = nd) :
    IsCodeword ecc nd nc (dat ++ ecc dat) := by
  constructor
  · rw [List.length_append, hdat, hlen dat hdat]
  · rw [List.take_left' hdat, List.drop_left' hdat]

theorem newBlock_blockInv {ecc : List Nat → List Nat} {nd nc : Nat}
    (hlen : EccLen ecc nd nc) {dat : List Nat} (hdat : dat.length = nd) :
    BlockInv ecc nd nc (newBlock ecc nd nc dat) := by
  refine ⟨codeword_append hlen hdat, ?_, ?_⟩
  · intro row hrow
    simp only [newBlock, List.mem_map] at hrow
    obtain ⟨i, -, hrow⟩ := hrow
    subst hrow
    exact codeword_append hlen (by simp [unitRow])
  · intro row hrow
    simp [newBlock] at hrow

/-- Equation for a successful `canSet`, given where the scan found the pivot. -/
theorem canSet_some_eq (b : BitBlock) (bi bval : Nat)
    (pre post : List (List Nat)) (piv : List Nat)
    (hs : splitAtFirst (fun row => hasBit row bi) b.M = some (pre, piv, post)) :
    b.canSet bi bval = (true,
      { b with B := if getBit b.B bi ≠ bval then xorRow b.B piv else b.B,
               M := rotLast (afterScan pre piv bi post),
               Mret := piv :: reduceRows piv bi b.Mret }) := by
  unfold BitBlock.canSet
  rw [hs]

theorem canSet_true_split (b : BitBlock) (bi bval : Nat)
    (h : (b.canSet bi bval).1 = true) :
    ∃ pre piv post,
      splitAtFirst (fun row => hasBit row bi) b.M = some (pre, piv, post) := by
  cases hs : splitAtFirst (fun row => hasBit row bi) b.M with
  | none =>
    unfold BitBlock.canSet at h
    rw [hs] at h
    exact absurd h (by simp)
  | some x => exact ⟨x.1, x.2.1, x.2.2, by rfl⟩

theorem canSet_blockInv {ecc : List Nat → List Nat} {nd nc : Nat}
    (hlin : EccLinear ecc nd) {b : BitBlock} (hinv : BlockInv ecc nd nc b)
    (bi bval : Nat) (h : (b.canSet bi bval).1 = true) :
    BlockInv ecc nd nc (b.canSet bi bval).2 := by
  obtain ⟨pre, piv, post, hs⟩ := canSet_true_split b bi bval h
  rw [canSet_some_eq b bi bval pre post piv hs]
  obtain ⟨hm, -, -⟩ := splitAtFirst_eq _ _ _ _ _ hs
  have hpivmem : piv ∈ b.M := by rw [hm]; simp
  have hpivcw := hinv.2.1 piv hpivmem
  refine ⟨?_, ?_, ?_⟩
  · show IsCodeword ecc nd nc (if getBit b.B bi ≠ bval then xorRow b.B piv else b.B)
    by_cases hbit : getBit b.B bi = bval
    · rw [if_neg (by simp [hbit])]; exact hinv.1
    · rw [if_pos hbit]; exact IsCodeword.xorRows hlin hinv.1 hpivcw
  · intro row hrow
    have hrow := mem_rotLast _ _ hrow
    rcases mem_afterScan _ _ _ _ _ hrow with hrow | hrow
    · exact hinv.2.1 row (by rw [hm]; exact List.mem_append.mpr (Or.inl hrow))
    · obtain ⟨r, hr, hcase⟩ := mem_reduceRows _ _ _ _ hrow
      have hrcw : IsCodeword ecc nd nc r :=
        hinv.2.1 r (by rw [hm]; simp [hr])
      rcases hcase with hcase | hcase
      · subst hcase; exact hrcw
      · subst hcase; exact IsCodeword.xorRows hlin hrcw hpivcw
  · intro row hrow
    rcases List.mem_cons.mp hrow with hrow | hrow
    · subst hrow; exact hpivcw
    · obtain ⟨r, hr, hcase⟩ := mem_reduceRows _ _ _ _ hrow
      have hrcw : IsCodeword ecc nd nc r := hinv.2.2 r hr
      rcases hcase with hcase | hcase
      · subst hcase; exact hrcw
      · subst hcase; exact IsCodeword.xorRows hlin hrcw hpivcw

theorem reset_blockInv {ecc : List Nat → List Nat} {nd nc : Nat}
    (hlin : EccLinear ecc nd) {b : BitBlock} (hinv : BlockInv ecc nd nc b)
    (bi bval : Nat) {b' : BitBlock} (h : b.reset bi bval = some b') :
    BlockInv ecc nd nc b' := by
  unfold BitBlock.reset at h
  by_cases hbit : getBit b.B bi = bval
  · rw [if_pos hbit] at h
    cases h
    exact hinv
  · rw [if_neg hbit] at h
    cases hf : b.Mret.find? (fun row => hasBit row bi) with
    | none => rw [hf] at h; exact absurd h (by simp)
    | some row =>
      rw [hf] at h
      cases h
      have hrow : row ∈ b.Mret := List.mem_of_find?_eq_some hf
      exact ⟨IsCodeword.xorRows hlin hinv.1 (hinv.2.2 row hrow),
        hinv.2.1, hinv.2.2⟩

/-! Concrete sample used by the witnesses: the one-data-byte, one-check-byte
GF(2) repetition code (check byte = data byte), which is linear over XOR. -/

def idEcc : List Nat → List Nat := fun d => d

def blkA : BitBlock := newBlock idEcc 1 1 [3]

def blkB : BitBlock := (blkA.canSet 0 1).2

/-- C1: for every bit-block, after every successful `can_set` call, every
`reset` call, and every `copy_out` call, the check bytes equal the
Reed–Solomon ECC of the data bytes: `ECC(B[:nd]) = B[nd:]` bit for bit
(B is always a valid RS codeword).  The invariant is established by
`newBlock` and preserved by each operation; `copyOut` returns
`(B[:nd], B[nd:])` unchanged. -/
theorem c1_ecc_closure (ecc : List Nat → List Nat) (nd nc : Nat)
    (hlin : EccLinear ecc nd) (hlen : EccLen ecc nd nc)
    (dat : List Nat) (hdat : dat.length = nd)
    (b : BitBlock) (hnd : b.DataBytes = nd)
    (hinv : BlockInv ecc nd nc b) (bi bval : Nat) :
    BlockInv ecc nd nc (newBlock ecc nd nc dat)
    ∧ ((b.canSet bi bval).1 = true →
        BlockInv ecc nd nc (b.canSet bi bval).2
        ∧ ecc ((b.canSet bi bval).2.B.take nd) = (b.canSet bi bval).2.B.drop nd)
    ∧ (∀ b', b.reset bi bval = some b' →
        BlockInv ecc nd nc b' ∧ ecc (b'.B.take nd) = b'.B.drop nd)
    ∧ ecc b.copyOut.1 = b.copyOut.2 := by
  refine ⟨newBlock_blockInv hlen hdat, ?_, ?_, ?_⟩
  · intro h
    have hinv' := canSet_blockInv hlin hinv bi bval h
    exact ⟨hinv', hinv'.1.2⟩
  · intro b' h
    have hinv' := reset_blockInv hlin hinv bi bval h
    exact ⟨hinv', hinv'.1.2⟩
  · show ecc (b.B.take b.DataBytes) = b.B.drop b.DataBytes
    rw [hnd]
    exact hinv.1.2

theorem c1_ecc_closure_witness :
    BlockInv idEcc 1 1 blkA ∧ (blkA.canSet 0 1).1 = true ∧
      idEcc ((blkA.canSet 0 1).2.B.take 1) = (blkA.canSet 0 1).2.B.drop 1 :=
  ⟨by decide, by decide,
    ((c1_ecc_closure idEcc 1 1 (fun x y _ _ => rfl) (fun d h => h)
      [3] rfl blkA rfl (by decide) 0 1).2.1 (by decide)).2⟩

/-- C6: within a single Encode call, the active tableau row count of each
block never increases: a successful `can_set` shrinks the active row count
by exactly one, a failed `can_set` leaves it unchanged, and `reset` never
changes it. -/
theorem c6_monotone_pinning (b : BitBlock) (bi bval : Nat) :
    ((b.canSet bi bval).1 = true →
      (b.canSet bi bval).2.M.length + 1 = b.M.length)
    ∧ ((b.canSet bi bval).1 = false → (b.canSet bi bval).2.M.length = b.M.length)
    ∧ (∀ b', b.reset bi bval = some b' → b'.M.length = b.M.length) := by
  refine ⟨?_, ?_, ?_⟩
  · intro h
    obtain ⟨pre, piv, post, hs⟩ := canSet_true_split b bi bval h
    rw [canSet_some_eq b bi bval pre post piv hs]
    obtain ⟨hm, -, -⟩ := splitAtFirst_eq _ _ _ _ _ hs
    show (rotLast (afterScan pre piv bi post)).length + 1 = b.M.length
    rw [length_rotLast, length_afterScan, hm]
    simp
    omega
  · intro h
    rw [canSet_false_unchanged b bi bval h]
  · intro b' h
    unfold BitBlock.reset at h
    by_cases hbit : getBit b.B bi = bval
    · rw [if_pos hbit] at h; cases h; rfl
    · rw [if_neg hbit] at h
      cases hf : b.Mret.find? (fun row => hasBit row bi) with
      | none => rw [hf] at h; exact absurd h (by simp)
      | some row => rw [hf] at h; cases h; rfl

theorem c6_monotone_pinning_witness :
    ((blkA.canSet 0 1).2.M.length + 1 = blkA.M.length)
    ∧ ((blkA.canSet 16 0).2.M.length = blkA.M.length)
    ∧ ((blkB.reset 0 0).getD blkB).M.length = blkB.M.length :=
  ⟨(c6_monotone_pinning blkA 0 1).1 (by decide),
   (c6_monotone_pinning blkA 16 0).2.1 (by decide),
   (c6_monotone_pinning blkB 0 0).2.2 ((blkB.reset 0 0).getD blkB) (by decide)⟩

/-- C9: `can_set` failure is atomic — it returns false exactly when no
active tableau row has a 1 in column `bi`, and in that case the buffer B,
the active rows and the retained rows are all left exactly as they were. -/
theorem c9_canset_failure_atomic (b : BitBlock) (bi bval : Nat) :
    ((b.canSet bi bval).1 = false ↔ ∀ row ∈ b.M, hasBit row bi = false)
    ∧ ((b.canSet bi bval).1 = false → (b.canSet bi bval).2 = b) :=
  ⟨canSet_false_iff b bi bval, canSet_false_unchanged b bi bval⟩

theorem c9_canset_failure_atomic_witness :
    (∀ row ∈ blkA.M, hasBit row 16 = false) ∧ (blkA.canSet 16 1).2 = blkA :=
  ⟨(c9_canset_failure_atomic blkA 16 1).1.mp (by decide),
   (c9_canset_failure_atomic blkA 16 1).2 (by decide)⟩

/-- C7: `reset(i, v)` returns without modifying any state when bit `B[i]`
already equals `v`; otherwise it XORs into B some retained row with a 1 at
column `i` (so `B[i]` becomes `v`, the tableau untouched), and it panics
(`none` here) exactly when no retained row has a 1 at column `i`. -/
theorem c7_reset_behavior (b : BitBlock) (bi bval : Nat) (hval : bval < 2)
    (hbl : bi / 8 < b.B.length)
    (hrows : ∀ row ∈ b.Mret, row.length = b.B.length) :
    (getBit b.B bi = bval → b.reset bi bval = some b)
    ∧ (getBit b.B bi ≠ bval →
        ((b.reset bi bval = none ↔ ∀ row ∈ b.Mret, hasBit row bi = false)
        ∧ (∀ b', b.reset bi bval = some b' →
            ∃ row ∈ b.Mret, hasBit row bi = true ∧ b'.B = xorRow b.B row
              ∧ b'.M = b.M ∧ b'.Mret = b.Mret ∧ getBit b'.B bi = bval))) := by
  constructor
  · intro h
    unfold BitBlock.reset
    rw [if_pos h]
  · intro hne
    unfold BitBlock.reset
    rw [if_neg hne]
    constructor
    · cases hf : b.Mret.find? (fun row => hasBit row bi) with
      | none =>
        simp only [eq_self_iff_true, true_iff]
        intro row hrow
        have := List.find?_eq_none.mp hf row hrow
        simpa using this
      | some row =>
        simp only [iff_false, reduceCtorEq, false_iff]
        intro hall
        have hmem := List.mem_of_find?_eq_some hf
        have hbitrow := List.find?_some hf
        rw [hall row hmem] at hbitrow
        exact absurd hbitrow (by simp)
    · intro b' h
      cases hf : b.Mret.find? (fun row => hasBit row bi) with
      | none => rw [hf] at h; exact absurd h (by simp)
      | some row =>
        rw [hf] at h
        cases h
        have hmem := List.mem_of_find?_eq_some hf
        have hbitrow : hasBit row bi = true := by simpa using List.find?_some hf
        refine ⟨row, hmem, hbitrow, rfl, rfl, rfl, ?_⟩
        show getBit (xorRow b.B row) bi = bval
        rw [getBit_xorRow b.B row bi hbl (by rw [hrows row hmem]; exact hbl)]
        have h1 : getBit row bi = 1 := (hasBit_iff_getBit row bi).mp hbitrow
        have h0 : getBit b.B bi ≤ 1 := getBit_le_one b.B bi
        rw [h1]
        have h2 : getBit b.B bi = 0 ∨ getBit b.B bi = 1 := by omega
        rcases h2 with h | h
        · rw [h] at hne ⊢
          rw [Nat.zero_xor]
          omega
        · rw [h] at hne ⊢
          rw [Nat.xor_self]
          omega

theorem c7_reset_behavior_witness :
    0 < 2 ∧ (0 : Nat) / 8 < blkB.B.length
    ∧ (∀ row ∈ blkB.Mret, row.length = blkB.B.length)
    ∧ getBit blkB.B 0 ≠ 0
    ∧ ∃ row ∈ blkB.Mret, hasBit row 0 = true
        ∧ ((blkB.reset 0 0).getD blkB).B = xorRow blkB.B row
        ∧ ((blkB.reset 0 0).getD blkB).M = blkB.M
        ∧ ((blkB.reset 0 0).getD blkB).Mret = blkB.Mret
        ∧ getBit ((blkB.reset 0 0).getD blkB).B 0 = 0 :=
  ⟨by decide, by decide, by decide, by decide,
    ((c7_reset_behavior blkB 0 0 (by decide) (by decide) (by decide)).2
      (by decide)).2 ((blkB.reset 0 0).getD blkB) (by decide)⟩

/-! Parameter clamping (`func (m *Image) Clamp()`). -/

/-- The fields of `Image` that `Clamp` reads and writes (Go `int`s). -/
structure ClampImage where
  Version : Int
  Scale : Int
deriving DecidableEq, Repr

/-- `func (m *Image) Clamp()`: `Version > 8` is reduced to 8, `Scale == 0`
becomes 8, and `Scale` is halved when `Version >= 12 && Scale >= 4`
(Go `/` on int truncates toward zero, `Int.tdiv`). -/
def ClampImage.Clamp (m : ClampImage) : ClampImage :=
  let m1 := if m.Version > 8 then { m with Version := 8 } else m
  let m2 := if m1.Scale = 0 then { m1 with Scale := 8 } else m1
  if m2.Version ≥ 12 ∧ m2.Scale ≥ 4 then { m2 with Scale := m2.Scale.tdiv 2 }
  else m2

/-- C10: `Encode` begins with `m.Clamp()`, which clamps rather than rejects:
a Version greater than 8 is silently reduced to 8 and a Scale of 0 is
replaced by 8 — `Clamp` is total and these are its only effects (the
scale-halving branch is dead, since the clamped Version is never ≥ 12), so
the version/scale parameters never produce an error return. -/
theorem c10_clamp_not_reject (v s : Int) :
    ((ClampImage.mk v s).Clamp.Version = if v > 8 then 8 else v)
    ∧ ((ClampImage.mk v s).Clamp.Scale = if s = 0 then 8 else s) := by
  have key : (ClampImage.mk v s).Clamp
      = ClampImage.mk (if v > 8 then 8 else v) (if s = 0 then 8 else s) := by
    by_cases hv : v > 8
    · by_cases hs : s = 0 <;> simp [ClampImage.Clamp, hv, hs]
    · have h12 : ¬ (v ≥ 12) := by omega
      by_cases hs : s = 0 <;> simp [ClampImage.Clamp, hv, hs, h12]
  rw [key]
  exact ⟨rfl, rfl⟩

/-! Plan rotation (`func (m *Image) rotate(p *coding.Plan, rot int)`). -/

/-- The rotation applied to the plan's module grid `p.Pixel`.  `Pixel`
values are opaque naturals here: each carries its role, offset and flag
bits and is moved wholesale, so role tagging and offsets travel with the
value.  The grid is indexed `Pixel[y][x]` (row `y`, column `x`) as
everywhere else in the source.  For `rot` outside 0..3 the freshly
allocated all-zero grid is kept, as in the source. -/
def rotatePlan (pixel : List (List Nat)) (rot : Nat) : List (List Nat) :=
  if rot = 0 then pixel
  else
    let N := pixel.length
    let get := fun y x => (pixel.getD y []).getD x 0
    if rot = 1 then
      (List.range N).map fun y => (List.range N).map fun x => get x (N - 1 - y)
    else if rot = 2 then
      (List.range N).map fun y => (List.range N).map fun x =>
        get (N - 1 - y) (N - 1 - x)
    else if rot = 3 then
      (List.range N).map fun y => (List.range N).map fun x => get (N - 1 - x) y
    else
      (List.range N).map fun _ => (List.range N).map fun _ => 0

theorem getD_map_range {α : Type} (n i : Nat) (f : Nat → α) (d : α)
    (h : i < n) : ((List.range n).map f).getD i d = f i := by
  rw [List.getD_eq_getElem _ _ (by simp [h])]
  simp

/-- C5 counterexample: on the 2×2 grid [[0,1],[2,3]] with rotation 1, the
module at original (x,y) = (0,0) (value `Pixel[0][0] = 0`) does NOT appear
at (N-1-y, x) = (1, 0): the rotated grid is [[1,3],[0,2]] and its value at
column 1, row 0 is 3. -/
theorem c5_rotation_counterexample :
    ¬ ((rotatePlan [[0, 1], [2, 3]] 1).getD 0 []).getD 1 0
        = (([[0, 1], [2, 3]] : List (List Nat)).getD 0 []).getD 0 0 := by
  decide

/-- C5 amended: applying rotation 1 to an N×N plan moves the module at
original coordinates (x,y) to coordinates (y, N-1-x) — not (N-1-y, x); the
spec's formula holds only if (x,y) is read as (row, column) against the
source's `Pixel[y][x]` convention.  The value (carrying role tagging and
offset) is unchanged at the rotated coordinate, and rotation 0 leaves the
plan unchanged. -/
theorem c5_rotation_amended (pixel : List (List Nat)) (N x y : Nat)
    (hN : pixel.length = N) (hx : x < N) (hy : y < N) :
    ((rotatePlan pixel 1).getD (N - 1 - x) []).getD y 0
        = (pixel.getD y []).getD x 0
    ∧ rotatePlan pixel 0 = pixel := by
  constructor
  · unfold rotatePlan
    simp only [one_ne_zero, if_false, if_pos, ite_true, ite_false, hN]
    rw [getD_map_range N (N - 1 - x) _ _ (by omega),
        getD_map_range N y _ _ hy]
    have : N - 1 - (N - 1 - x) = x := by omega
    rw [this]
  · simp [rotatePlan]

theorem c5_rotation_amended_witness :
    ((2 : Nat) ≤ 2 ∧ (1 : Nat) < 2 ∧ (0 : Nat) < 2)
    ∧ ((rotatePlan [[0, 1], [2, 3]] 1).getD 0 []).getD 0 0
        = (([[0, 1], [2, 3]] : List (List Nat)).getD 0 []).getD 1 0
    ∧ rotatePlan [[0, 1], [2, 3]] 0 = [[0, 1], [2, 3]] :=
  ⟨by decide,
    (c5_rotation_amended [[0, 1], [2, 3]] 2 1 0 (by decide) (by decide)
      (by decide)).1,
    (c5_rotation_amended [[0, 1], [2, 3]] 2 1 0 (by decide) (by decide)
      (by decide)).2⟩

/-! The target model (`func (m *Image) target(x, y int) (targ byte, contrast int)`). -/

/-- The fields of `Image` that `target` reads. -/
structure TargetImage where
  Target : List (List Int)
  Dx : Int
  Dy : Int

/-- `m.Target[ty]` (rows are only read at in-bounds indices). -/
def trow (t : List (List Int)) (ty : Int) : List Int := t.getD ty.toNat []

/-- `m.Target[ty][tx]`. -/
def tval (t : List (List Int)) (ty tx : Int) : Int := (trow t ty).getD tx.toNat 0

/-- `0 <= ty && ty < len(m.Target) && 0 <= tx && tx < len(m.Target[ty])`. -/
def inTarget (t : List (List Int)) (ty tx : Int) : Prop :=
  0 ≤ ty ∧ ty < (t.length : Int) ∧ 0 ≤ tx ∧ tx < ((trow t ty).length : Int)

instance (t : List (List Int)) (ty tx : Int) : Decidable (inTarget t ty tx) := by
  unfold inTarget
  infer_instance

/-- The inner `for dx := -del; dx <= del; dx++` loop of `target`, at row
offset `dy = i - 5` (loop counters shifted to `0..10`), accumulating
`(n, sum, sumsq)`. -/
def innerLoop (t : List (List Int)) (ty tx : Int) (i : Nat)
    (a : Nat × Int × Int) : Nat × Int × Int :=
  (List.range 11).foldl (fun (a2 : Nat × Int × Int) (j : Nat) =>
    if inTarget t (ty + ((i : Int) - 5)) (tx + ((j : Int) - 5)) then
      (a2.1 + 1,
       a2.2.1 + tval t (ty + ((i : Int) - 5)) (tx + ((j : Int) - 5)),
       a2.2.2 + tval t (ty + ((i : Int) - 5)) (tx + ((j : Int) - 5))
          * tval t (ty + ((i : Int) - 5)) (tx + ((j : Int) - 5)))
    else a2) a

/-- The `n, sum, sumsq` accumulation over the 11×11 window
(`for dy := -del; dy <= del; dy++ { ... }` with `del = 5`). -/
def neighFold (t : List (List Int)) (ty tx : Int) : Nat × Int × Int :=
  (List.range 11).foldl (fun (a : Nat × Int × Int) (i : Nat) =>
    innerLoop t ty tx i a) (0, 0, 0)

/-- `func (m *Image) target(x, y int) (targ byte, contrast int)`.
`byte(v0)` is `v0 % 256` for the non-negative `v0` reaching it; Go `/` on
`int` truncates toward zero (`Int.tdiv`). -/
def TargetImage.target (m : TargetImage) (x y : Int) : Int × Int :=
  let tx := x + m.Dx
  let ty := y + m.Dy
  if ¬ inTarget m.Target ty tx then (255, -1)
  else
    let v0 := tval m.Target ty tx
    if v0 < 0 then (255, -1)
    else
      let acc := neighFold m.Target ty tx
      let avg := Int.tdiv acc.2.1 (acc.1 : Int)
      (v0 % 256, Int.tdiv acc.2.2 (acc.1 : Int) - avg * avg)

/-- The window cell visited at loop counters `(i, j)`, when in bounds. -/
def cellVal (t : List (List Int)) (ty tx : Int) (i j : Nat) : Option Int :=
  if inTarget t (ty + ((i : Int) - 5)) (tx + ((j : Int) - 5)) then
    some (tval t (ty + ((i : Int) - 5)) (tx + ((j : Int) - 5)))
  else none

/-- The list of in-bounds values of the 11×11 window centered at (ty, tx),
row-major — the specification-side view of the neighborhood. -/
def neighVals (t : List (List Int)) (ty tx : Int) : List Int :=
  ((List.range 11).map fun i =>
    ((List.range 11).map (cellVal t ty tx i)).reduceOption).flatten

/-- One accumulation step on an optional cell value. -/
def accStep (a : Nat × Int × Int) (o : Option Int) : Nat × Int × Int :=
  match o with
  | some v => (a.1 + 1, a.2.1 + v, a.2.2 + v * v)
  | none => a

theorem foldl_accStep (os : List (Option Int)) (acc : Nat × Int × Int) :
    os.foldl accStep acc
      = (acc.1 + os.reduceOption.length, acc.2.1 + os.reduceOption.sum,
         acc.2.2 + (os.reduceOption.map fun v => v * v).sum) := by
  induction os generalizing acc with
  | nil => simp
  | cons o os ih =>
    cases o with
    | none =>
      rw [List.foldl_cons]
      show os.foldl accStep acc = _
      rw [ih]
      simp [List.reduceOption]
    | some v =>
      rw [List.foldl_cons]
      show os.foldl accStep (acc.1 + 1, acc.2.1 + v, acc.2.2 + v * v) = _
      rw [ih]
      simp [List.reduceOption]
      refine ⟨by omega, by ring, by ring⟩

theorem innerLoop_eq_accStep (t : List (List Int)) (ty tx : Int) (i : Nat)
    (a : Nat × Int × Int) :
    innerLoop t ty tx i a
      = ((List.range 11).map (cellVal t ty tx i)).foldl accStep a := by
  unfold innerLoop
  rw [List.foldl_map]
  apply List.foldl_ext
  intro a2 j hj
  unfold cellVal accStep
  by_cases h : inTarget t (ty + ((i : Int) - 5)) (tx + ((j : Int) - 5)) <;>
    simp [h]

theorem neighFold_eq_neighVals (t : List (List Int)) (ty tx : Int) :
    neighFold t ty tx
      = ((neighVals t ty tx).length, (neighVals t ty tx).sum,
         ((neighVals t ty tx).map fun v => v * v).sum) := by
  have key : ∀ (is : List Nat) (acc : Nat × Int × Int),
      is.foldl (fun (a : Nat × Int × Int) (i : Nat) => innerLoop t ty tx i a) acc
      = (acc.1 + ((is.map fun i =>
            ((List.range 11).map (cellVal t ty tx i)).reduceOption).flatten).length,
         acc.2.1 + ((is.map fun i =>
            ((List.range 11).map (cellVal t ty tx i)).reduceOption).flatten).sum,
         acc.2.2 + (((is.map fun i =>
            ((List.range 11).map (cellVal t ty tx i)).reduceOption).flatten).map
              fun v => v * v).sum) := by
    intro is
    induction is with
    | nil => intro acc; simp
    | cons i is ih =>
      intro acc
      rw [List.foldl_cons, innerLoop_eq_accStep, foldl_accStep, ih]
      simp
      refine ⟨by omega, by ring, by ring⟩
  unfold neighFold neighVals
  rw [key]
  simp

theorem sq_sum_nonneg (l : List Int) : 0 ≤ (l.map fun v => v * v).sum :=
  List.sum_nonneg fun x hx => by
    obtain ⟨v, hv, hq⟩ := List.mem_map.mp hx
    subst hq
    exact mul_self_nonneg v

/-- Cauchy–Schwarz for integer lists: `(Σv)² ≤ n·Σv²`. -/
theorem sum_sq_le (l : List Int) :
    l.sum * l.sum ≤ (l.length : Int) * (l.map fun v => v * v).sum := by
  induction l with
  | nil => simp
  | cons a t ih =>
    rcases Nat.eq_zero_or_pos t.length with h0 | hpos
    · have ht : t = [] := List.eq_nil_of_length_eq_zero h0
      subst ht
      simp
    · have hn : (0 : Int) < (t.length : Int) := by exact_mod_cast hpos
      simp only [List.sum_cons, List.map_cons, List.length_cons]
      push_cast
      nlinarith [ih, sq_nonneg ((t.length : Int) * a - t.sum), hn]

theorem tdiv_mul_tdiv_le (s n : Int) :
    (Int.tdiv s n * n) * (Int.tdiv s n * n) ≤ s * s := by
  have h1 : (Int.tdiv s n * n).natAbs ≤ s.natAbs := by
    rw [Int.natAbs_mul, Int.natAbs_tdiv]
    exact Nat.div_mul_le_self _ _
  have h2 : (Int.tdiv s n * n).natAbs * (Int.tdiv s n * n).natAbs
      ≤ s.natAbs * s.natAbs := Nat.mul_le_mul h1 h1
  have h3 : (((Int.tdiv s n * n).natAbs * (Int.tdiv s n * n).natAbs : Nat) : Int)
      ≤ ((s.natAbs * s.natAbs : Nat) : Int) := by exact_mod_cast h2
  rwa [Int.natAbs_mul_self, Int.natAbs_mul_self] at h3

/-- The integer "mean of squares minus square of mean" is non-negative
(with Go's truncated division). -/
theorem variance_nonneg (l : List Int) (h : 0 < l.length) :
    0 ≤ Int.tdiv (l.map fun v => v * v).sum (l.length : Int)
        - Int.tdiv l.sum (l.length : Int) * Int.tdiv l.sum (l.length : Int) := by
  have hn : (0 : Int) < (l.length : Int) := by exact_mod_cast h
  have hq : 0 ≤ (l.map fun v => v * v).sum := sq_sum_nonneg l
  have hcs := sum_sq_le l
  have h1 := tdiv_mul_tdiv_le l.sum (l.length : Int)
  have h2 : Int.tdiv l.sum (l.length : Int) * Int.tdiv l.sum (l.length : Int)
      * (l.length : Int) ≤ (l.map fun v => v * v).sum := by
    have hstep : Int.tdiv l.sum (l.length : Int) * Int.tdiv l.sum (l.length : Int)
        * (l.length : Int) * (l.length : Int)
        ≤ (l.map fun v => v * v).sum * (l.length : Int) := by
      calc Int.tdiv l.sum (l.length : Int) * Int.tdiv l.sum (l.length : Int)
            * (l.length : Int) * (l.length : Int)
          = (Int.tdiv l.sum (l.length : Int) * (l.length : Int))
            * (Int.tdiv l.sum (l.length : Int) * (l.length : Int)) := by ring
        _ ≤ l.sum * l.sum := h1
        _ ≤ (l.length : Int) * (l.map fun v => v * v).sum := hcs
        _ = (l.map fun v => v * v).sum * (l.length : Int) := by ring
    exact le_of_mul_le_mul_right hstep hn
  have h3 : Int.tdiv (l.map fun v => v * v).sum (l.length : Int)
      = (l.map fun v => v * v).sum / (l.length : Int) :=
    Int.tdiv_eq_ediv hq (le_of_lt hn)
  have h4 : Int.tdiv l.sum (l.length : Int) * Int.tdiv l.sum (l.length : Int)
      ≤ (l.map fun v => v * v).sum / (l.length : Int) :=
    (Int.le_ediv_iff_mul_le hn).mpr h2
  rw [h3]
  omega

theorem center_mem_neighVals (t : List (List Int)) (ty tx : Int)
    (h : inTarget t ty tx) : tval t ty tx ∈ neighVals t ty tx := by
  unfold neighVals
  rw [List.mem_flatten]
  refine ⟨((List.range 11).map (cellVal t ty tx 5)).reduceOption,
    List.mem_map.mpr ⟨5, by simp, rfl⟩, ?_⟩
  rw [List.reduceOption_mem_iff]
  refine List.mem_map.mpr ⟨5, by simp, ?_⟩
  unfold cellVal
  have h5 : ((5 : Nat) : Int) - 5 = 0 := by norm_num
  rw [h5, add_zero, add_zero, if_pos h]

theorem tval_bounds (t : List (List Int)) (ty tx : Int) (h : inTarget t ty tx)
    (hvals : ∀ row ∈ t, ∀ v ∈ row, v ≤ 255) : tval t ty tx ≤ 255 := by
  obtain ⟨h1, h2, h3, h4⟩ := h
  have hrow : trow t ty ∈ t := by
    unfold trow
    have hlt : ty.toNat < t.length := (Int.toNat_lt h1).mpr h2
    rw [List.getD_eq_getElem _ _ hlt]
    exact List.getElem_mem hlt
  have hv : tval t ty tx ∈ trow t ty := by
    unfold tval
    have hlt : tx.toNat < (trow t ty).length := (Int.toNat_lt h3).mpr h4
    rw [List.getD_eq_getElem _ _ hlt]
    exact List.getElem_mem hlt
  exact hvals _ hrow _ hv

/-- C8: `target(x,y)` returns `(255, -1)` exactly when `(x+Dx, y+Dy)` lies
outside the target grid or the stored value there is negative (unset);
otherwise it returns the stored brightness together with a contrast score
equal to the integer local variance — mean of squares minus square of mean,
with Go's truncating division — over the in-bounds part of the 11×11
neighborhood centered at `(x+Dx, y+Dy)`.  (The hypothesis is the target
data model: values are at most 255.  The "exactly" holds because the
variance is provably non-negative, hence never −1.) -/
theorem c8_target (m : TargetImage) (x y : Int)
    (hvals : ∀ row ∈ m.Target, ∀ v ∈ row, v ≤ 255) :
    (m.target x y = (255, -1) ↔
      ¬ inTarget m.Target (y + m.Dy) (x + m.Dx)
        ∨ tval m.Target (y + m.Dy) (x + m.Dx) < 0)
    ∧ (inTarget m.Target (y + m.Dy) (x + m.Dx) →
        0 ≤ tval m.Target (y + m.Dy) (x + m.Dx) →
        m.target x y
          = (tval m.Target (y + m.Dy) (x + m.Dx),
             Int.tdiv ((neighVals m.Target (y + m.Dy) (x + m.Dx)).map
                 fun v => v * v).sum
               ((neighVals m.Target (y + m.Dy) (x + m.Dx)).length : Int)
             - Int.tdiv (neighVals m.Target (y + m.Dy) (x + m.Dx)).sum
               ((neighVals m.Target (y + m.Dy) (x + m.Dx)).length : Int)
             * Int.tdiv (neighVals m.Target (y + m.Dy) (x + m.Dx)).sum
               ((neighVals m.Target (y + m.Dy) (x + m.Dx)).length : Int))) := by
  have hmain : inTarget m.Target (y + m.Dy) (x + m.Dx) →
      0 ≤ tval m.Target (y + m.Dy) (x + m.Dx) →
      m.target x y
        = (tval m.Target (y + m.Dy) (x + m.Dx),
           Int.tdiv ((neighVals m.Target (y + m.Dy) (x + m.Dx)).map
               fun v => v * v).sum
             ((neighVals m.Target (y + m.Dy) (x + m.Dx)).length : Int)
           - Int.tdiv (neighVals m.Target (y + m.Dy) (x + m.Dx)).sum
             ((neighVals m.Target (y + m.Dy) (x + m.Dx)).length : Int)
           * Int.tdiv (neighVals m.Target (y + m.Dy) (x + m.Dx)).sum
             ((neighVals m.Target (y + m.Dy) (x + m.Dx)).length : Int)) := by
    intro hin hv0
    unfold TargetImage.target
    rw [if_neg (by simp [hin]), if_neg (by omega),
        neighFold_eq_neighVals]
    have h255 : tval m.Target (y + m.Dy) (x + m.Dx) % 256
        = tval m.Target (y + m.Dy) (x + m.Dx) := by
      have := tval_bounds m.Target (y + m.Dy) (x + m.Dx) hin hvals
      exact Int.emod_eq_of_lt hv0 (by omega)
    rw [h255]
  have hvar : inTarget m.Target (y + m.Dy) (x + m.Dx) →
      0 ≤ Int.tdiv ((neighVals m.Target (y + m.Dy) (x + m.Dx)).map
             fun v => v * v).sum
           ((neighVals m.Target (y + m.Dy) (x + m.Dx)).length : Int)
         - Int.tdiv (neighVals m.Target (y + m.Dy) (x + m.Dx)).sum
           ((neighVals m.Target (y + m.Dy) (x + m.Dx)).length : Int)
         * Int.tdiv (neighVals m.Target (y + m.Dy) (x + m.Dx)).sum
           ((neighVals m.Target (y + m.Dy) (x + m.Dx)).length : Int) := by
    intro hin
    exact variance_nonneg _ (List.length_pos.mpr
      (List.ne_nil_of_mem (center_mem_neighVals _ _ _ hin)))
  refine ⟨⟨?_, ?_⟩, hmain⟩
  · intro heq
    by_cases hin : inTarget m.Target (y + m.Dy) (x + m.Dx)
    · by_cases hv0 : tval m.Target (y + m.Dy) (x + m.Dx) < 0
      · exact Or.inr hv0
      · exfalso
        rw [hmain hin (by omega)] at heq
        have h2 := congrArg Prod.snd heq
        simp only at h2
        have := hvar hin
        omega
    · exact Or.inl hin
  · intro hp
    unfold TargetImage.target
    rcases hp with hp | hp
    · rw [if_pos (by simp [hp])]
    · by_cases hin : inTarget m.Target (y + m.Dy) (x + m.Dx)
      · rw [if_neg (by simp [hin]), if_pos hp]
      · rw [if_pos (by simp [hin])]

theorem c8_target_witness :
    (∀ row ∈ ([[10, 20], [30, -1]] : List (List Int)), ∀ v ∈ row, v ≤ 255)
    ∧ inTarget ([[10, 20], [30, -1]] : List (List Int)) 0 0
    ∧ (0 : Int) ≤ tval ([[10, 20], [30, -1]] : List (List Int)) 0 0
    ∧ (TargetImage.mk [[10, 20], [30, -1]] 0 0).target 0 0
        = (tval ([[10, 20], [30, -1]] : List (List Int)) 0 0,
           Int.tdiv ((neighVals ([[10, 20], [30, -1]] : List (List Int)) 0 0).map
               fun v => v * v).sum
             ((neighVals ([[10, 20], [30, -1]] : List (List Int)) 0 0).length : Int)
           - Int.tdiv (neighVals ([[10, 20], [30, -1]] : List (List Int)) 0 0).sum
             ((neighVals ([[10, 20], [30, -1]] : List (List Int)) 0 0).length : Int)
           * Int.tdiv (neighVals ([[10, 20], [30, -1]] : List (List Int)) 0 0).sum
             ((neighVals ([[10, 20], [30, -1]] : List (List Int)) 0 0).length : Int)) :=
  ⟨by decide, by decide, by decide,
    (c8_target (TargetImage.mk [[10, 20], [30, -1]] 0 0) 0 0 (by decide)).2
      (by decide) (by decide)⟩

/-! The numeric suffix reconciliation and the `Again` restart loop of
`Image.Encode` (source lines 227–469). -/

/-- The fields of `Pixinfo` that the reconciliation writes. -/
structure PixMark where
  Contrast : Int
  HardZero : Bool
deriving DecidableEq, Repr

/-- One 10-bit group: `v <<= 1; v |= int((data[bi/8] >> (7 - bi&7)) & 1)`
for `j = 0..9`, `bi = bbit + 10*i + j`. -/
def groupValue (data : List Nat) (bbit i : Nat) : Nat :=
  (List.range 10).foldl
    (fun (v : Nat) (j : Nat) => (v <<< 1) ||| getBit data (bbit + 10 * i + j)) 0

/-- The body of the `for i := 0; i < dbit/10; i++` reconciliation loop:
on overflow (`v >= 1000`) mark the pixel at offset `bbit+10*i+3` with
`Contrast = 1e9 >> 8` and `HardZero = true` and count a noop.  (The digit
writes into `num` do not affect the marks or the counter.)  `pixByOff` is
modelled as a map from bit offsets to marks. -/
def reconcileStep (data : List Nat) (bbit : Nat) (acc : Nat × (Nat → PixMark))
    (i : Nat) : Nat × (Nat → PixMark) :=
  if 1000 ≤ groupValue data bbit i then
    (acc.1 + 1, fun k => if k = bbit + 10 * i + 3 then
        PixMark.mk ((1000000000 >>> 8 : Nat) : Int) true
      else acc.2 k)
  else acc

/-- The whole reconciliation pass: returns `(noops, pixByOff)`. -/
def reconcile (data : List Nat) (bbit dbit : Nat) (marks : Nat → PixMark) :
    Nat × (Nat → PixMark) :=
  (List.range (dbit / 10)).foldl (reconcileStep data bbit) (0, marks)

/-- Modelled from the spec: the steering pass of `Image.Encode` (spec
section 4.5, steps 1–5 — template build, priority ordering, per-block
pinning, materialization, optional dither) depends on `coding.Plan`,
`coding.Bits` and the PRNG, which are outside these sources; it is kept
abstract as a function from the current hard-zero marks to the final data
bytes of the pass.  `encodePasses` is the `Again:` restart loop: run a
pass, reconcile, return its data if `noops == 0`, else restart with the
updated marks.  The Go loop is reproduced with explicit fuel (`none` means
fuel ran out; the source loop is bounded in practice by the number of
digit groups). -/
def encodePasses (pass : (Nat → PixMark) → List Nat) (bbit dbit : Nat) :
    Nat → (Nat → PixMark) → Option (List Nat)
  | 0, _ => none
  | fuel + 1, marks =>
    let data := pass marks
    let r := reconcile data bbit dbit marks
    if r.1 = 0 then some data
    else encodePasses pass bbit dbit fuel r.2

theorem reconcile_fst (data : List Nat) (bbit : Nat) (is : List Nat)
    (acc : Nat × (Nat → PixMark)) :
    (is.foldl (reconcileStep data bbit) acc).1
      = acc.1 + (is.filter fun i => 1000 ≤ groupValue data bbit i).length := by
  induction is generalizing acc with
  | nil => simp
  | cons i is ih =>
    rw [List.foldl_cons]
    by_cases h : 1000 ≤ groupValue data bbit i
    · rw [ih]
      simp [reconcileStep, h]
      omega
    · rw [ih]
      simp [reconcileStep, h]

theorem reconcile_zero_iff (data : List Nat) (bbit dbit : Nat)
    (marks : Nat → PixMark) :
    (reconcile data bbit dbit marks).1 = 0 ↔
      ∀ i < dbit / 10, groupValue data bbit i < 1000 := by
  unfold reconcile
  rw [reconcile_fst]
  simp only [Nat.zero_add, List.length_eq_zero]
  rw [List.filter_eq_nil_iff]
  constructor
  · intro h i hi
    have := h i (List.mem_range.mpr hi)
    simp at this
    omega
  · intro h i hi
    have := h i (List.mem_range.mp hi)
    simp
    omega

/-- An overflow mark, once written, survives the rest of the loop (any later
write to the same offset writes the same constant mark). -/
theorem reconcileStep_stable (data : List Nat) (bbit i : Nat) (is : List Nat)
    (acc : Nat × (Nat → PixMark))
    (h : acc.2 (bbit + 10 * i + 3)
      = PixMark.mk ((1000000000 >>> 8 : Nat) : Int) true) :
    (is.foldl (reconcileStep data bbit) acc).2 (bbit + 10 * i + 3)
      = PixMark.mk ((1000000000 >>> 8 : Nat) : Int) true := by
  induction is generalizing acc with
  | nil => exact h
  | cons j is ih =>
    rw [List.foldl_cons]
    apply ih
    unfold reconcileStep
    by_cases hj : 1000 ≤ groupValue data bbit j
    · simp only [if_pos hj]
      by_cases hk : bbit + 10 * i + 3 = bbit + 10 * j + 3
      · simp [hk]
      · simp only [if_neg hk]
        exact h
    · simp only [if_neg hj]
      exact h

theorem reconcile_marks_mem (data : List Nat) (bbit i : Nat) (is : List Nat)
    (hv : 1000 ≤ groupValue data bbit i) :
    ∀ acc : Nat × (Nat → PixMark), i ∈ is →
      (is.foldl (reconcileStep data bbit) acc).2 (bbit + 10 * i + 3)
        = PixMark.mk ((1000000000 >>> 8 : Nat) : Int) true := by
  induction is with
  | nil => intro acc h; simp at h
  | cons j is ih =>
    intro acc hmem
    rw [List.foldl_cons]
    rcases List.mem_cons.mp hmem with hji | hmem'
    · subst hji
      apply reconcileStep_stable
      unfold reconcileStep
      simp only [if_pos hv]
      simp
    · exact ih _ hmem'

/-- C2: when `Encode` returns successfully, every 10-bit group in the bit
range `[bbit, mbit)` of the final data bytes decodes to a decimal value in
`[0, 1000)` (the groups `i < dbit/10` cover exactly `[bbit, mbit)` with
`mbit = bbit + dbit/10*10`); if during a pass some group has value ≥ 1000,
the pixel at offset `bbit+10*i+3` is marked `HardZero` with contrast
`1e9 >> 8` (which dominates every target-derived contrast, giving the
module maximal priority), the noop counter becomes positive, and the
steering restarts from the `Again` label with the updated marks instead of
returning. -/
theorem c2_numeric_validity (pass : (Nat → PixMark) → List Nat)
    (bbit dbit fuel : Nat) (marks : Nat → PixMark) :
    (∀ data, encodePasses pass bbit dbit fuel marks = some data →
       ∀ i < dbit / 10, groupValue data bbit i < 1000)
    ∧ (∀ i < dbit / 10, 1000 ≤ groupValue (pass marks) bbit i →
        0 < (reconcile (pass marks) bbit dbit marks).1
        ∧ (reconcile (pass marks) bbit dbit marks).2 (bbit + 10 * i + 3)
            = PixMark.mk ((1000000000 >>> 8 : Nat) : Int) true
        ∧ encodePasses pass bbit dbit (fuel + 1) marks
            = encodePasses pass bbit dbit fuel
                (reconcile (pass marks) bbit dbit marks).2) := by
  constructor
  · induction fuel generalizing marks with
    | zero =>
      intro data h
      exact absurd h (by simp [encodePasses])
    | succ fuel ih =>
      intro data h
      unfold encodePasses at h
      by_cases hz : (reconcile (pass marks) bbit dbit marks).1 = 0
      · rw [if_pos hz] at h
        cases h
        exact (reconcile_zero_iff _ _ _ _).mp hz
      · rw [if_neg hz] at h
        exact ih _ data h
  · intro i hi hv
    have hpos : 0 < (reconcile (pass marks) bbit dbit marks).1 := by
      unfold reconcile
      rw [reconcile_fst]
      have : i ∈ (List.range (dbit / 10)).filter
          fun i => 1000 ≤ groupValue (pass marks) bbit i := by
        rw [List.mem_filter]
        exact ⟨List.mem_range.mpr hi, by simpa using hv⟩
      have := List.length_pos.mpr (List.ne_nil_of_mem this)
      omega
    refine ⟨hpos, ?_, ?_⟩
    · exact reconcile_marks_mem _ _ _ _ hv _ (List.mem_range.mpr hi)
    · show (let data := pass marks
            let r := reconcile data bbit dbit marks
            if r.1 = 0 then some data
            else encodePasses pass bbit dbit fuel r.2) = _
      rw [if_neg (by omega)]

/-- Concrete instance for the C2 witness: a "pass" that emits the data byte
0xff until the hard-zero mark at offset 3 is set (one 10-bit group, value
1020 ≥ 1000), then emits 0x00. -/
def passW : (Nat → PixMark) → List Nat :=
  fun m => if (m 3).HardZero then [0] else [255]

def marksW : Nat → PixMark := fun _ => PixMark.mk 0 false

theorem c2_numeric_validity_witness :
    (∀ i < (10 : Nat) / 10, groupValue [0] 0 i < 1000)
    ∧ (0 < (reconcile (passW marksW) 0 10 marksW).1
        ∧ (reconcile (passW marksW) 0 10 marksW).2 (0 + 10 * 0 + 3)
            = PixMark.mk ((1000000000 >>> 8 : Nat) : Int) true
        ∧ encodePasses passW 0 10 (1 + 1) marksW
            = encodePasses passW 0 10 1 (reconcile (passW marksW) 0 10 marksW).2) :=
  ⟨(c2_numeric_validity passW 0 10 2 marksW).1 [0] (by decide),
   (c2_numeric_validity passW 0 10 1 marksW).2 0 (by decide) (by decide)⟩

/-! Determinism of the steering given the PRNG seed. -/

/-- Modelled from the spec: the PRNG (`math/rand.Rand`, seeded at the top
of `Encode`; the package is outside these sources) is per spec sections 5
and 6 a deterministic seeded state machine supplying `Intn`.  Any
deterministic transition models it; a 64-bit LCG is used here.  The
wall-clock default seed of the source is, per the spec, an input supplied
by the caller. -/
structure PRNG where
  state : Nat
deriving DecidableEq, Repr

def PRNG.next (r : PRNG) : Nat × PRNG :=
  let s := (r.state * 6364136223846793005 + 1442695040888963407) % (2 ^ 64)
  (s, PRNG.mk s)

/-- `rand.Intn(n)`. -/
def PRNG.intn (r : PRNG) (n : Nat) : Nat × PRNG :=
  let p := r.next
  (p.1 % n, p.2)

/-- `po.Priority = pixByOff[po.Off].Contrast<<8 | rand.Intn(256)` threaded
over the order list (`c <<< 8 ||| r` written `c*256 + r`, equal for the
non-negative contrasts that reach this point). -/
def assignPriorities : PRNG → List Int → List Int × PRNG
  | r, [] => ([], r)
  | r, c :: cs =>
    let p := r.intn 256
    let rest := assignPriorities p.2 cs
    ((c * 256 + (p.1 : Int)) :: rest.1, rest.2)

/-- Walk the sorted order list, committing each position with `canSet`
(`if bb.canSet(uint(bi), bval)` — the steering keeps the post-call state
either way). -/
def steerFold (b : BitBlock) (ord : List (Nat × Nat)) : BitBlock :=
  ord.foldl (fun bb e => (bb.canSet e.1 e.2).2) b

/-- The per-block steering pipeline of `Encode` steps 2–3: assign each
order entry (bit index, desired value, contrast) its priority using the
seeded PRNG, sort descending by priority (`sort.Sort(byPriority(order))`),
and commit with the solver in that order. -/
def steerPipeline (seed : Nat) (b : BitBlock)
    (entries : List ((Nat × Nat) × Int)) : BitBlock :=
  let pr := assignPriorities (PRNG.mk seed) (entries.map fun e => e.2)
  let keyed := entries.zip pr.1
  let sorted := keyed.mergeSort fun a b => decide (b.2 ≤ a.2)
  steerFold b (sorted.map fun e => e.1.1)

/-- C4: given a fixed PRNG seed, the steering is a deterministic pure
function of its inputs — two runs with identical block state, identical
order entries and identical seed produce identical output blocks.  (In
this embedding the wall-clock seed of source line 202 is an explicit
parameter, as the spec prescribes; every other quantity the pipeline reads
is an argument, so determinism is by construction.) -/
theorem c4_determinism (seed1 seed2 : Nat) (b1 b2 : BitBlock)
    (e1 e2 : List ((Nat × Nat) × Int))
    (hs : seed1 = seed2) (hb : b1 = b2) (he : e1 = e2) :
    steerPipeline seed1 b1 e1 = steerPipeline seed2 b2 e2 := by
  subst hs
  subst hb
  subst he
  rfl

theorem c4_determinism_witness :
    steerPipeline 42 blkA [((0, 1), 5), ((9, 0), 7)]
      = steerPipeline 42 blkA [((0, 1), 5), ((9, 0), 7)] :=
  c4_determinism 42 42 blkA blkA [((0, 1), 5), ((9, 0), 7)]
    [((0, 1), 5), ((9, 0), 7)] rfl rfl rfl

/-! Preservation (C3): bits pinned by the preservation loop stay fixed
through the following steering and dither operations. -/

/-- The columns pinned so far. -/
def colsOf (S : List (Nat × Nat)) : List Nat := S.map Prod.fst

/-- Re-pin column `bi` to `bval` (the effect of a dither `reset` on the
pin bookkeeping). -/
def updatePin (S : List (Nat × Nat)) (bi bval : Nat) : List (Nat × Nat) :=
  S.map fun p => if p.1 = bi then (bi, bval) else p

/-- One solver call made by the steering/dither passes. -/
inductive SolverOp where
  | set (bi bval : Nat)
  | rst (bi bval : Nat)
deriving DecidableEq, Repr

/-- The column a `reset` op touches, if any. -/
def SolverOp.rstCol : SolverOp → Option Nat
  | SolverOp.rst bi _ => some bi
  | _ => none

/-- Run a sequence of solver calls: `canSet`'s boolean is consumed by the
caller but the state advances either way; a failed `reset` is the
`panic("reset of unset bit")`. -/
def runOps (b : BitBlock) : List SolverOp → Option BitBlock
  | [] => some b
  | SolverOp.set bi bval :: ops => runOps (b.canSet bi bval).2 ops
  | SolverOp.rst bi bval :: ops =>
    match b.reset bi bval with
    | some b2 => runOps b2 ops
    | none => none

/-- The pin bookkeeping after a sequence of solver calls. -/
def pinsAfter (b : BitBlock) (S : List (Nat × Nat)) :
    List SolverOp → List (Nat × Nat)
  | [] => S
  | SolverOp.set bi bval :: ops =>
    pinsAfter (b.canSet bi bval).2
      (if (b.canSet bi bval).1 then (bi, bval) :: S else S) ops
  | SolverOp.rst bi bval :: ops =>
    match b.reset bi bval with
    | some b2 => pinsAfter b2 (updatePin S bi bval) ops
    | none => S

/-- Validity of a call sequence, mirroring how `Encode` uses the solver:
`canSet` is called with a bit value, on an in-range column not pinned
before (each loop of `Encode` walks distinct offsets); `reset` is called
(by the dither pass) only on columns previously pinned. -/
def OpsOK (n : Nat) : BitBlock → List (Nat × Nat) → List SolverOp → Prop
  | _, _, [] => True
  | b, S, SolverOp.set bi bval :: ops =>
    bval < 2 ∧ bi < n ∧ bi ∉ colsOf S ∧
      OpsOK n (b.canSet bi bval).2
        (if (b.canSet bi bval).1 then (bi, bval) :: S else S) ops
  | b, S, SolverOp.rst bi bval :: ops =>
    bval < 2 ∧ bi ∈ colsOf S ∧
      (b.reset bi bval).elim True
        (fun b2 => OpsOK n b2 (updatePin S bi bval) ops)

def OpsOK.dec (n : Nat) : (b : BitBlock) → (S : List (Nat × Nat)) →
    (ops : List SolverOp) → Decidable (OpsOK n b S ops)
  | _, _, [] => isTrue trivial
  | b, S, SolverOp.set bi bval :: ops =>
    letI := OpsOK.dec n (b.canSet bi bval).2
      (if (b.canSet bi bval).1 then (bi, bval) :: S else S) ops
    inferInstanceAs (Decidable (_ ∧ _ ∧ _ ∧ _))
  | b, S, SolverOp.rst bi bval :: ops =>
    letI : Decidable ((b.reset bi bval).elim True
        (fun b2 => OpsOK n b2 (updatePin S bi bval) ops)) := by
      cases hr : b.reset bi bval with
      | none => exact isTrue trivial
      | some b2 => exact OpsOK.dec n b2 (updatePin S bi bval) ops
    inferInstanceAs (Decidable (_ ∧ _ ∧ _))

instance (n : Nat) (b : BitBlock) (S : List (Nat × Nat))
    (ops : List SolverOp) : Decidable (OpsOK n b S ops) :=
  OpsOK.dec n b S ops

/-- The pinned-state invariant: lengths are uniform, every pinned column
holds its pinned bit in B, no active row has a 1 in a pinned column, and a
retained row with a 1 in a pinned column has 0 in every other pinned
column (only the parked pivot of a column has a 1 there). -/
@[reducible] def GoodPins (nd nc : Nat) (b : BitBlock)
    (S : List (Nat × Nat)) : Prop :=
  b.B.length = nd + nc
  ∧ (∀ row ∈ b.M, row.length = nd + nc)
  ∧ (∀ row ∈ b.Mret, row.length = nd + nc)
  ∧ ∀ p ∈ S, p.1 < (nd + nc) * 8
      ∧ p.2 < 2
      ∧ getBit b.B p.1 = p.2
      ∧ (∀ row ∈ b.M, hasBit row p.1 = false)
      ∧ (∀ row ∈ b.Mret, hasBit row p.1 = true →
          ∀ q ∈ S, q.1 ≠ p.1 → hasBit row q.1 = false)

theorem xor_bit_flip (a v : Nat) (ha : a ≤ 1) (hv : v < 2) (hne : a ≠ v) :
    a ^^^ 1 = v := by
  have h2 : a = 0 ∨ a = 1 := by omega
  rcases h2 with h | h <;> subst h
  · rw [Nat.zero_xor]; omega
  · rw [Nat.xor_self]; omega

theorem hasBit_congr (a c : List Nat) (k : Nat)
    (h : getBit a k = getBit c k) : hasBit a k = hasBit c k := by
  cases hc : hasBit c k
  · rw [(hasBit_false_getBit c k).mp hc] at h
    exact (hasBit_false_getBit a k).mpr h
  · rw [(hasBit_iff_getBit c k).mp hc] at h
    exact (hasBit_iff_getBit a k).mpr h

theorem getBit_xorRow_zero (a c : List Nat) (k : Nat)
    (ha : k / 8 < a.length) (hc : k / 8 < c.length)
    (h : getBit c k = 0) : getBit (xorRow a c) k = getBit a k := by
  rw [getBit_xorRow a c k ha hc, h, Nat.xor_zero]

theorem hasBit_xorRow_zero (a c : List Nat) (k : Nat)
    (ha : k / 8 < a.length) (hc : k / 8 < c.length)
    (h : hasBit c k = false) : hasBit (xorRow a c) k = hasBit a k :=
  hasBit_congr _ _ _
    (getBit_xorRow_zero a c k ha hc ((hasBit_false_getBit c k).mp h))

theorem div8_lt (bi L : Nat) (h : bi < L * 8) : bi / 8 < L :=
  (Nat.div_lt_iff_lt_mul (by norm_num)).mpr h

/-- Every row surviving a successful elimination on column `bi` has a 0
there (the `panic("did not reduce")` assertion). -/
theorem reduceRows_clears (targ : List Nat) (bi L : Nat)
    (rows : List (List Nat)) (htb : hasBit targ bi = true)
    (htl : targ.length = L) (hrl : ∀ r ∈ rows, r.length = L)
    (hdiv : bi / 8 < L) :
    ∀ row ∈ reduceRows targ bi rows, hasBit row bi = false := by
  intro row hrow
  obtain ⟨r, hr, hrmem⟩ := List.mem_map.mp hrow
  by_cases hb : hasBit r bi
  · rw [if_pos hb] at hrmem
    subst hrmem
    rw [hasBit_false_getBit,
        getBit_xorRow r targ bi (by rw [hrl r hr]; exact hdiv)
          (by rw [htl]; exact hdiv),
        (hasBit_iff_getBit r bi).mp hb, (hasBit_iff_getBit targ bi).mp htb,
        Nat.xor_self]
  · rw [if_neg hb] at hrmem
    subst hrmem
    exact eq_false_of_ne_true hb

/-- Membership description of the active region after a successful
`canSet`: every surviving row is an old active row, possibly with the
pivot XORed in. -/
theorem mem_canSet_M (pre post : List (List Nat)) (piv : List Nat) (bi : Nat)
    (row : List Nat) (hrow : row ∈ rotLast (afterScan pre piv bi post)) :
    (row ∈ pre ∨ ∃ r ∈ post, row = r ∨ row = xorRow r piv) := by
  rcases mem_afterScan _ _ _ _ _ (mem_rotLast _ _ hrow) with h | h
  · exact Or.inl h
  · exact Or.inr (mem_reduceRows _ _ _ _ h)

/-- A successful `canSet` pins its column and leaves all previously pinned
columns intact. -/
theorem canSet_goodPins (nd nc : Nat) (b : BitBlock) (S : List (Nat × Nat))
    (hG : GoodPins nd nc b S) (bi bval : Nat)
    (hbi : bi < (nd + nc) * 8) (hbval : bval < 2)
    (h : (b.canSet bi bval).1 = true) :
    GoodPins nd nc (b.canSet bi bval).2 ((bi, bval) :: S) := by
  obtain ⟨hBlen, hMlen, hRlen, hPins⟩ := hG
  obtain ⟨pre, piv, post, hs⟩ := canSet_true_split b bi bval h
  obtain ⟨hm, hpre, hpivbit⟩ := splitAtFirst_eq _ _ _ _ _ hs
  have hdiv : bi / 8 < nd + nc := div8_lt bi (nd + nc) hbi
  have hpivmem : piv ∈ b.M := by rw [hm]; simp
  have hpivlen : piv.length = nd + nc := hMlen piv hpivmem
  have hpivbit' : hasBit piv bi = true := by simpa using hpivbit
  have hnotbi : ∀ p ∈ S, p.1 ≠ bi := by
    intro p hp hcontra
    have hclear := (hPins p hp).2.2.2.1 piv hpivmem
    rw [hcontra] at hclear
    rw [hclear] at hpivbit'
    exact absurd hpivbit' (by simp)
  have hpivclear : ∀ p ∈ S, hasBit piv p.1 = false := fun p hp =>
    (hPins p hp).2.2.2.1 piv hpivmem
  have hpdiv : ∀ p ∈ S, p.1 / 8 < nd + nc := fun p hp =>
    div8_lt p.1 (nd + nc) (hPins p hp).1
  have hprebit : ∀ r ∈ pre, hasBit r bi = false := by
    intro r hr
    simpa using hpre r hr
  have hpostlen : ∀ r ∈ post, r.length = nd + nc := by
    intro r hr
    exact hMlen r (by rw [hm]; simp [hr])
  have hprelen : ∀ r ∈ pre, r.length = nd + nc := by
    intro r hr
    exact hMlen r (by rw [hm]; exact List.mem_append.mpr (Or.inl hr))
  have hpremem : ∀ r ∈ pre, r ∈ b.M := by
    intro r hr
    rw [hm]
    exact List.mem_append.mpr (Or.inl hr)
  have hpostmem : ∀ r ∈ post, r ∈ b.M := by
    intro r hr
    rw [hm]
    simp [hr]
  have hMclear : ∀ row ∈ rotLast (afterScan pre piv bi post),
      hasBit row bi = false := by
    intro row hrow
    rcases mem_afterScan _ _ _ _ _ (mem_rotLast _ _ hrow) with hc | hc
    · exact hprebit row hc
    · exact reduceRows_clears piv bi (nd + nc) post hpivbit' hpivlen
        hpostlen hdiv row hc
  have hRclear : ∀ row ∈ reduceRows piv bi b.Mret, hasBit row bi = false :=
    reduceRows_clears piv bi (nd + nc) b.Mret hpivbit' hpivlen hRlen hdiv
  rw [canSet_some_eq b bi bval pre post piv hs]
  refine ⟨?_, ?_, ?_, ?_⟩
  · show (if getBit b.B bi ≠ bval then xorRow b.B piv else b.B).length = nd + nc
    split_ifs with hbit
    · rw [length_xorRow b.B piv (hpivlen.trans hBlen.symm)]
      exact hBlen
    · exact hBlen
  · show ∀ row ∈ rotLast (afterScan pre piv bi post), row.length = nd + nc
    intro row hrow
    rcases mem_canSet_M pre post piv bi row hrow with hc | ⟨r, hr, hc⟩
    · exact hprelen row hc
    · rcases hc with hc | hc
      · rw [hc]; exact hpostlen r hr
      · rw [hc, length_xorRow r piv (hpivlen.trans (hpostlen r hr).symm)]
        exact hpostlen r hr
  · show ∀ row ∈ piv :: reduceRows piv bi b.Mret, row.length = nd + nc
    intro row hrow
    rcases List.mem_cons.mp hrow with hc | hc
    · rw [hc]; exact hpivlen
    · obtain ⟨r, hr, hcase⟩ := mem_reduceRows _ _ _ _ hc
      rcases hcase with hcase | hcase
      · rw [hcase]; exact hRlen r hr
      · rw [hcase, length_xorRow r piv (hpivlen.trans (hRlen r hr).symm)]
        exact hRlen r hr
  · intro p' hp'
    rcases List.mem_cons.mp hp' with hc | hpS
    · subst hc
      refine ⟨hbi, hbval, ?_, hMclear, ?_⟩
      · show getBit (if getBit b.B bi ≠ bval then xorRow b.B piv else b.B) bi
            = bval
        split_ifs with hbit
        · rw [getBit_xorRow b.B piv bi (by rw [hBlen]; exact hdiv)
              (by rw [hpivlen]; exact hdiv),
            (hasBit_iff_getBit piv bi).mp hpivbit']
          exact xor_bit_flip _ _ (getBit_le_one b.B bi) hbval hbit
        · omega
      · intro row hrow hbit1 q hq hqne
        rcases List.mem_cons.mp hrow with hc | hc
        · subst hc
          rcases List.mem_cons.mp hq with hqc | hqc
          · subst hqc; exact absurd rfl hqne
          · exact hpivclear q hqc
        · rw [hRclear row hc] at hbit1
          exact absurd hbit1 (by simp)
    · obtain ⟨hp1, hp2, hp3, hp4, hp5⟩ := hPins p' hpS
      have hclearp : hasBit piv p'.1 = false := hpivclear p' hpS
      have hgetp : getBit piv p'.1 = 0 := (hasBit_false_getBit _ _).mp hclearp
      have hpd : p'.1 / 8 < nd + nc := hpdiv p' hpS
      refine ⟨hp1, hp2, ?_, ?_, ?_⟩
      · show getBit (if getBit b.B bi ≠ bval then xorRow b.B piv else b.B) p'.1
            = p'.2
        split_ifs with hbit
        · rw [getBit_xorRow_zero b.B piv p'.1 (by rw [hBlen]; exact hpd)
            (by rw [hpivlen]; exact hpd) hgetp]
          exact hp3
        · exact hp3
      · show ∀ row ∈ rotLast (afterScan pre piv bi post),
            hasBit row p'.1 = false
        intro row hrow
        rcases mem_canSet_M pre post piv bi row hrow with hc | ⟨r, hr, hc⟩
        · exact hp4 row (hpremem row hc)
        · have hbase : hasBit r p'.1 = false := hp4 r (hpostmem r hr)
          rcases hc with hc | hc <;> subst hc
          · exact hbase
          · rw [hasBit_xorRow_zero r piv p'.1
              (by rw [hpostlen r hr]; exact hpd)
              (by rw [hpivlen]; exact hpd) hclearp]
            exact hbase
      · intro row hrow hbit1 q hq hqne
        rcases List.mem_cons.mp hrow with hc | hc
        · subst hc
          rw [hclearp] at hbit1
          exact absurd hbit1 (by simp)
        · obtain ⟨r, hr, hcase⟩ := mem_reduceRows _ _ _ _ hc
          have hsame : ∀ k, k / 8 < nd + nc → hasBit piv k = false →
              hasBit row k = hasBit r k := by
            intro k hk hpk
            rcases hcase with hcase | hcase
            · rw [hcase]
            · rw [hcase]
              exact hasBit_xorRow_zero r piv k (by rw [hRlen r hr]; exact hk)
                (by rw [hpivlen]; exact hk) hpk
          have hrbit : hasBit r p'.1 = true := by
            rw [← hsame p'.1 hpd hclearp]
            exact hbit1
          rcases List.mem_cons.mp hq with hqc | hqc
          · subst hqc
            exact hRclear row hc
          · rw [hsame q.1 (hpdiv q hqc) (hpivclear q hqc)]
            exact hp5 r hr hrbit q hqc hqne

/-- A `reset` on a pinned column re-pins that column to the requested value
and leaves every other pinned column intact. -/
theorem reset_goodPins (nd nc : Nat) (b : BitBlock) (S : List (Nat × Nat))
    (hG : GoodPins nd nc b S) (bi bval : Nat) (hbval : bval < 2)
    (hmem : bi ∈ colsOf S) (b' : BitBlock)
    (h : b.reset bi bval = some b') :
    GoodPins nd nc b' (updatePin S bi bval) := by
  obtain ⟨hBlen, hMlen, hRlen, hPins⟩ := hG
  obtain ⟨p0, hp0S, hp0fst⟩ := List.mem_map.mp hmem
  have hp0 := hPins p0 hp0S
  have hdiv : bi / 8 < nd + nc := by
    rw [← hp0fst]
    exact div8_lt _ _ hp0.1
  have hbi' : bi < (nd + nc) * 8 := by rw [← hp0fst]; exact hp0.1
  unfold BitBlock.reset at h
  by_cases hbit : getBit b.B bi = bval
  · rw [if_pos hbit] at h
    cases h
    refine ⟨hBlen, hMlen, hRlen, ?_⟩
    intro p' hp'
    obtain ⟨p, hpS, hpmap⟩ := List.mem_map.mp hp'
    have hp := hPins p hpS
    by_cases hcol : p.1 = bi
    · rw [if_pos hcol] at hpmap
      subst hpmap
      refine ⟨hbi', hbval, hbit, ?_, ?_⟩
      · show ∀ row ∈ b.M, hasBit row bi = false
        intro row hrow
        have := hp.2.2.2.1 row hrow
        rwa [hcol] at this
      · intro row hrow hbit1 q' hq' hqne
        obtain ⟨q, hqS, hqmap⟩ := List.mem_map.mp hq'
        have hrowbit : hasBit row p0.1 = true := by rw [hp0fst]; exact hbit1
        by_cases hqcol : q.1 = bi
        · rw [if_pos hqcol] at hqmap
          subst hqmap
          exact absurd rfl hqne
        · rw [if_neg hqcol] at hqmap
          subst hqmap
          exact hp0.2.2.2.2 row hrow hrowbit q hqS (by rw [hp0fst]; exact hqcol)
    · rw [if_neg hcol] at hpmap
      subst hpmap
      refine ⟨hp.1, hp.2.1, hp.2.2.1, hp.2.2.2.1, ?_⟩
      intro row hrow hbit1 q' hq' hqne
      obtain ⟨q, hqS, hqmap⟩ := List.mem_map.mp hq'
      by_cases hqcol : q.1 = bi
      · rw [if_pos hqcol] at hqmap
        subst hqmap
        show hasBit row bi = false
        rw [← hp0fst]
        refine hp.2.2.2.2 row hrow hbit1 p0 hp0S ?_
        rw [hp0fst]
        exact fun hcontra => hcol hcontra.symm
      · rw [if_neg hqcol] at hqmap
        subst hqmap
        exact hp.2.2.2.2 row hrow hbit1 q hqS hqne
  · rw [if_neg hbit] at h
    cases hf : b.Mret.find? (fun row => hasBit row bi) with
    | none =>
      rw [hf] at h
      exact absurd h (by simp)
    | some row =>
      rw [hf] at h
      cases h
      have hrowmem : row ∈ b.Mret := List.mem_of_find?_eq_some hf
      have hrowbit : hasBit row bi = true := by simpa using List.find?_some hf
      have hrowlen : row.length = nd + nc := hRlen row hrowmem
      have hrowclear : ∀ q ∈ S, q.1 ≠ bi → hasBit row q.1 = false := by
        intro q hqS hqne
        refine hp0.2.2.2.2 row hrowmem (by rw [hp0fst]; exact hrowbit) q hqS ?_
        rw [hp0fst]
        exact hqne
      have hg1 : getBit (xorRow b.B row) bi = bval := by
        rw [getBit_xorRow b.B row bi (by rw [hBlen]; exact hdiv)
            (by rw [hrowlen]; exact hdiv),
          (hasBit_iff_getBit row bi).mp hrowbit]
        exact xor_bit_flip _ _ (getBit_le_one b.B bi) hbval hbit
      have hg2 : ∀ q ∈ S, q.1 ≠ bi →
          getBit (xorRow b.B row) q.1 = getBit b.B q.1 := by
        intro q hqS hqne
        have hqd : q.1 / 8 < nd + nc := div8_lt _ _ (hPins q hqS).1
        exact getBit_xorRow_zero b.B row q.1 (by rw [hBlen]; exact hqd)
          (by rw [hrowlen]; exact hqd)
          ((hasBit_false_getBit _ _).mp (hrowclear q hqS hqne))
      refine ⟨?_, hMlen, hRlen, ?_⟩
      · show (xorRow b.B row).length = nd + nc
        rw [length_xorRow b.B row (hrowlen.trans hBlen.symm)]
        exact hBlen
      · intro p' hp'
        obtain ⟨p, hpS, hpmap⟩ := List.mem_map.mp hp'
        have hp := hPins p hpS
        by_cases hcol : p.1 = bi
        · rw [if_pos hcol] at hpmap
          subst hpmap
          refine ⟨hbi', hbval, hg1, ?_, ?_⟩
          · show ∀ r ∈ b.M, hasBit r bi = false
            intro r hr
            have := hp.2.2.2.1 r hr
            rwa [hcol] at this
          · intro r hr hbit1 q' hq' hqne
            obtain ⟨q, hqS, hqmap⟩ := List.mem_map.mp hq'
            have hrbit : hasBit r p0.1 = true := by rw [hp0fst]; exact hbit1
            by_cases hqcol : q.1 = bi
            · rw [if_pos hqcol] at hqmap
              subst hqmap
              exact absurd rfl hqne
            · rw [if_neg hqcol] at hqmap
              subst hqmap
              exact hp0.2.2.2.2 r hr hrbit q hqS (by rw [hp0fst]; exact hqcol)
        · rw [if_neg hcol] at hpmap
          subst hpmap
          refine ⟨hp.1, hp.2.1, ?_, hp.2.2.2.1, ?_⟩
          · rw [hg2 p hpS hcol]
            exact hp.2.2.1
          · intro r hr hbit1 q' hq' hqne
            obtain ⟨q, hqS, hqmap⟩ := List.mem_map.mp hq'
            by_cases hqcol : q.1 = bi
            · rw [if_pos hqcol] at hqmap
              subst hqmap
              show hasBit r bi = false
              rw [← hp0fst]
              refine hp.2.2.2.2 r hr hbit1 p0 hp0S ?_
              rw [hp0fst]
              intro hcontra
              exact hcol hcontra.symm
            · rw [if_neg hqcol] at hqmap
              subst hqmap
              exact hp.2.2.2.2 r hr hbit1 q hqS hqne

/-- Running a valid call sequence preserves the pinned-state invariant,
with the pin bookkeeping evolved by `pinsAfter`. -/
theorem runOps_goodPins (nd nc : Nat) (ops : List SolverOp) :
    ∀ (b : BitBlock) (S : List (Nat × Nat)), GoodPins nd nc b S →
      OpsOK ((nd + nc) * 8) b S ops →
      ∀ b', runOps b ops = some b' →
        GoodPins nd nc b' (pinsAfter b S ops) := by
  induction ops with
  | nil =>
    intro b S hG _ b' h
    cases h
    exact hG
  | cons op ops ih =>
    intro b S hG hOK b' h
    cases op with
    | set bi bval =>
      obtain ⟨hbval, hbi, hfresh, hrest⟩ := hOK
      show GoodPins nd nc b'
        (pinsAfter (b.canSet bi bval).2
          (if (b.canSet bi bval).1 then (bi, bval) :: S else S) ops)
      by_cases hsucc : (b.canSet bi bval).1 = true
      · rw [if_pos hsucc]
        rw [if_pos hsucc] at hrest
        exact ih (b.canSet bi bval).2 ((bi, bval) :: S)
          (canSet_goodPins nd nc b S hG bi bval hbi hbval hsucc) hrest b' h
      · have hfalse : (b.canSet bi bval).1 = false := by
          cases hval : (b.canSet bi bval).1
          · rfl
          · exact absurd hval hsucc
        have hunch := canSet_false_unchanged b bi bval hfalse
        rw [if_neg hsucc]
        rw [if_neg hsucc] at hrest
        exact ih (b.canSet bi bval).2 S (by rw [hunch]; exact hG) hrest b' h
    | rst bi bval =>
      obtain ⟨hbval, hmem, hrest⟩ := hOK
      simp only [runOps] at h
      show GoodPins nd nc b'
        (match b.reset bi bval with
          | some b2 => pinsAfter b2 (updatePin S bi bval) ops
          | none => S)
      cases hr : b.reset bi bval with
      | none =>
        rw [hr] at h
        exact absurd h (by simp)
      | some b2 =>
        rw [hr] at h hrest
        exact ih b2 (updatePin S bi bval)
          (reset_goodPins nd nc b S hG bi bval hbval hmem b2 hr) hrest b' h

/-- A pin on a column never reset by the remaining calls survives the pin
bookkeeping. -/
theorem pinsAfter_mem (i v : Nat) (ops : List SolverOp) :
    ∀ (b : BitBlock) (S : List (Nat × Nat)), (i, v) ∈ S →
      (∀ op ∈ ops, op.rstCol ≠ some i) →
      (i, v) ∈ pinsAfter b S ops := by
  induction ops with
  | nil => intro b S h _; exact h
  | cons op ops ih =>
    intro b S hmem hno
    cases op with
    | set bi bval =>
      show (i, v) ∈ pinsAfter (b.canSet bi bval).2
        (if (b.canSet bi bval).1 then (bi, bval) :: S else S) ops
      refine ih _ _ ?_ (fun op hop => hno op (List.mem_cons_of_mem _ hop))
      by_cases hsucc : (b.canSet bi bval).1 = true
      · rw [if_pos hsucc]
        exact List.mem_cons_of_mem _ hmem
      · rw [if_neg hsucc]
        exact hmem
    | rst bi bval =>
      have hne : bi ≠ i := by
        intro hcontra
        subst hcontra
        exact hno (SolverOp.rst bi bval) (List.mem_cons_self _ _) rfl
      show (i, v) ∈ (match b.reset bi bval with
        | some b2 => pinsAfter b2 (updatePin S bi bval) ops
        | none => S)
      cases hr : b.reset bi bval with
      | none => exact hmem
      | some b2 =>
        refine ih _ _ ?_ (fun op hop => hno op (List.mem_cons_of_mem _ hop))
        refine List.mem_map.mpr ⟨(i, v), hmem, ?_⟩
        rw [if_neg (by simpa using fun hcontra => hne hcontra.symm)]

/-- One iteration of the preservation loop
(`if !bb.canSet(uint(i), (bdata[i/8]>>uint(7-i&7))&1) { fatal }`):
the Bool accumulates whether every call so far succeeded. -/
def stepPreserve (dat : List Nat) (acc : Bool × BitBlock) (i : Nat) :
    Bool × BitBlock :=
  (acc.1 && (acc.2.canSet i (getBit dat i)).1, (acc.2.canSet i (getBit dat i)).2)

/-- The preservation loop over an index list (`[0, lo)` and `[hi, nd*8)` in
the source), pinning each listed bit to its current template value. -/
def preserveRun (dat : List Nat) (b : BitBlock) (pres : List Nat) :
    Bool × BitBlock :=
  pres.foldl (stepPreserve dat) (true, b)

theorem foldl_stepPreserve_false (dat : List Nat) (pres : List Nat) :
    ∀ b : BitBlock, (pres.foldl (stepPreserve dat) (false, b)).1 = false := by
  induction pres with
  | nil => intro b; rfl
  | cons i pres ih =>
    intro b
    rw [List.foldl_cons]
    show (pres.foldl (stepPreserve dat)
      (false && ((b.canSet i (getBit dat i)).1), _)).1 = false
    rw [Bool.false_and]
    exact ih _

theorem newBlock_goodPins {ecc : List Nat → List Nat} {nd nc : Nat}
    (hlen : EccLen ecc nd nc) {dat : List Nat} (hdat : dat.length = nd) :
    GoodPins nd nc (newBlock ecc nd nc dat) [] := by
  refine ⟨?_, ?_, ?_, ?_⟩
  · show (dat ++ ecc dat).length = nd + nc
    rw [List.length_append, hdat, hlen dat hdat]
  · intro row hrow
    simp only [newBlock, List.mem_map] at hrow
    obtain ⟨i, -, hrow⟩ := hrow
    subst hrow
    show (_ ++ ecc _).length = nd + nc
    rw [List.length_append]
    have hd : ((List.range nd).map fun j =>
        if j = i / 8 then 1 <<< (7 - i % 8) else 0).length = nd := by simp
    rw [hd, hlen _ hd]
  · intro row hrow
    simp [newBlock] at hrow
  · intro p hp
    simp at hp

/-- If the preservation loop succeeds, it pins exactly its columns to the
template bits. -/
theorem preserve_phase (nd nc : Nat) (dat : List Nat) (pres : List Nat) :
    ∀ (b : BitBlock) (S : List (Nat × Nat)),
      GoodPins nd nc b S →
      (∀ i ∈ pres, i < (nd + nc) * 8) →
      (preserveRun dat b pres).1 = true →
      GoodPins nd nc (preserveRun dat b pres).2
        ((pres.map fun i => (i, getBit dat i)).reverse ++ S) := by
  induction pres with
  | nil =>
    intro b S hG _ _
    exact hG
  | cons i pres ih =>
    intro b S hG hcols htrue
    have hstep : stepPreserve dat (true, b) i
        = ((b.canSet i (getBit dat i)).1, (b.canSet i (getBit dat i)).2) := by
      show (true && _, _) = _
      rw [Bool.true_and]
    by_cases hsucc : (b.canSet i (getBit dat i)).1 = true
    · have hrun : preserveRun dat b (i :: pres)
          = preserveRun dat (b.canSet i (getBit dat i)).2 pres := by
        show (i :: pres).foldl (stepPreserve dat) (true, b) = _
        rw [List.foldl_cons, hstep, hsucc]
        rfl
      rw [hrun] at htrue ⊢
      have hGnext := canSet_goodPins nd nc b S hG i (getBit dat i)
        (hcols i (by simp)) (by have := getBit_le_one dat i; omega) hsucc
      have := ih (b.canSet i (getBit dat i)).2 ((i, getBit dat i) :: S) hGnext
        (fun j hj => hcols j (List.mem_cons_of_mem _ hj)) htrue
      rw [List.map_cons, List.reverse_cons, List.append_assoc,
        List.singleton_append]
      exact this
    · exfalso
      have hfalse : (b.canSet i (getBit dat i)).1 = false := by
        cases hval : (b.canSet i (getBit dat i)).1
        · rfl
        · exact absurd hval hsucc
      have : (preserveRun dat b (i :: pres)).1 = false := by
        show ((i :: pres).foldl (stepPreserve dat) (true, b)).1 = false
        rw [List.foldl_cons, hstep, hfalse]
        exact foldl_stepPreserve_false dat pres _
      rw [htrue] at this
      exact absurd this (by simp)

theorem getBit_append_left (a x : List Nat) (i : Nat) (h : i / 8 < a.length) :
    getBit (a ++ x) i = getBit a i := by
  unfold getBit byteAt
  rw [List.getD_eq_getElem _ _ (by rw [List.length_append]; omega),
      List.getD_eq_getElem _ _ h, List.getElem_append_left h]

/-- C3: for every data block of a successful Encode call, every bit outside
the editable range — the block-local positions in `[0, lo)` and
`[hi, nd*8)` pinned by the preservation loop — is identical in the input
template codeword (`newBlock`'s buffer `dat ++ ECC(dat)`) and the output
codeword, after any valid sequence of further `canSet` and `reset` calls:
the steering pass and the dither pass (whose `reset` calls only touch
editable, previously pinned columns, never the preserved ones).  `copyOut`
emits exactly `B`, so the identity carries to the written-out bytes. -/
theorem c3_preservation (ecc : List Nat → List Nat) (nd nc : Nat)
    (hlen : EccLen ecc nd nc) (dat : List Nat) (hdat : dat.length = nd)
    (pres : List Nat) (hcols : ∀ i ∈ pres, i < nd * 8)
    (hsucc : (preserveRun dat (newBlock ecc nd nc dat) pres).1 = true)
    (ops : List SolverOp)
    (hOK : OpsOK ((nd + nc) * 8)
      (preserveRun dat (newBlock ecc nd nc dat) pres).2
      ((pres.map fun i => (i, getBit dat i)).reverse) ops)
    (hnorst : ∀ op ∈ ops, ∀ i ∈ pres, op.rstCol ≠ some i)
    (b' : BitBlock)
    (hrun : runOps (preserveRun dat (newBlock ecc nd nc dat) pres).2 ops
      = some b') :
    (∀ i ∈ pres, getBit b'.B i = getBit (newBlock ecc nd nc dat).B i)
    ∧ b'.copyOut.1 ++ b'.copyOut.2 = b'.B := by
  have hG0 := newBlock_goodPins hlen hdat
  have hcols' : ∀ i ∈ pres, i < (nd + nc) * 8 := by
    intro i hi
    have := hcols i hi
    omega
  have hG1 := preserve_phase nd nc dat pres (newBlock ecc nd nc dat) [] hG0
    hcols' hsucc
  rw [List.append_nil] at hG1
  have hG2 := runOps_goodPins nd nc ops _ _ hG1 hOK b' hrun
  constructor
  · intro i hi
    have hpin : (i, getBit dat i)
        ∈ (pres.map fun i => (i, getBit dat i)).reverse := by
      rw [List.mem_reverse]
      exact List.mem_map.mpr ⟨i, hi, rfl⟩
    have hafter := pinsAfter_mem i (getBit dat i) ops
      (preserveRun dat (newBlock ecc nd nc dat) pres).2
      ((pres.map fun i => (i, getBit dat i)).reverse) hpin
      (fun op hop => hnorst op hop i hi)
    have hval := (hG2.2.2.2 (i, getBit dat i) hafter).2.2.1
    rw [hval]
    show getBit dat i = getBit (dat ++ ecc dat) i
    exact (getBit_append_left dat (ecc dat) i
      (by rw [hdat]; exact div8_lt i nd (hcols i hi))).symm
  · exact List.take_append_drop _ _

/-- Concrete data for the C3 witness: preserve bits 0 and 1 of the template
byte 3; then steer check-area bit 7 and dither-reset it. -/
def presW : List Nat := [0, 1]

def opsW : List SolverOp := [SolverOp.set 7 1, SolverOp.rst 7 0]

def b1W : BitBlock := (preserveRun [3] (newBlock idEcc 1 1 [3]) presW).2

def b2W : BitBlock := (runOps b1W opsW).getD blkA

theorem c3_preservation_witness :
    (preserveRun [3] (newBlock idEcc 1 1 [3]) presW).1 = true
    ∧ ((∀ i ∈ presW, getBit b2W.B i = getBit (newBlock idEcc 1 1 [3]).B i)
        ∧ b2W.copyOut.1 ++ b2W.copyOut.2 = b2W.B) :=
  ⟨by decide,
    c3_preservation idEcc 1 1 (fun d h => h) [3] rfl presW (by decide)
      (by decide) opsW (by decide) (by decide) b2W (by decide)⟩

end QArt
